import Mathlib

/-!
Verification of the Vietnamese text-integrity engine in
`src/preprocess/vn_validator.py` (validator, tone-placement resolver,
fixer pipeline, orchestrator).

Text is modelled as `List Char`.  The Unicode collaborator primitives the
program consumes (canonical decomposition / composition `unicodedata.normalize`,
`str.lower`, `str.isalpha`, `unicodedata.name`) are modelled by explicit finite
tables covering the Vietnamese repertoire (the 132 precomposed Vietnamese
vowel letters, their bases and the eight combining marks the program knows
about, plus the eight confusable characters of the homoglyph map) together
with representative non-Vietnamese precomposed letters that exercise the
clamp pass non-trivially: diaeresis-bearing Latin and Cyrillic letters
(ä Ä, ӓ — clamped to their bare base, which for ӓ is the Cyrillic homoglyph
key а) and the double-tone-decomposing letters Ṍ ṍ (NFD tilde + acute, two
of the program's tone marks).  Every other codepoint is treated as atomic
(decomposes to itself, case-maps to itself).  The repository functions
themselves are translated statement by statement from `vn_validator.py`.
-/

set_option maxRecDepth 40000

namespace VnValidator

/-! ## Unicode runtime model -/

/-- COMBINING ACUTE ACCENT. -/
def ACUTE : Char := '́'
/-- COMBINING GRAVE ACCENT. -/
def GRAVE : Char := '̀'
/-- COMBINING HOOK ABOVE. -/
def HOOK : Char := '̉'
/-- COMBINING TILDE. -/
def TILDE : Char := '̃'
/-- COMBINING DOT BELOW. -/
def DOTBELOW : Char := '̣'
/-- COMBINING CIRCUMFLEX ACCENT. -/
def CIRC : Char := '̂'
/-- COMBINING BREVE. -/
def BREVE : Char := '̆'
/-- COMBINING HORN. -/
def HORN : Char := '̛'
/-- COMBINING DIAERESIS (not a Vietnamese mark; carried by the
non-Vietnamese letters of the modelled repertoire). -/
def DIAERESIS : Char := '\u0308'

/-- Association lookup, first matching key wins (models Python dict lookup
on the finite tables below). -/
def assoc {α : Type} : List (Char × α) → Char → Option α
  | [], _ => none
  | p :: ps, c => if p.1 = c then some p.2 else assoc ps c

/-- Canonical decompositions (NFD) of the precomposed Vietnamese vowel
letters: each entry maps a precomposed character to its full NFD form
(base letter followed by combining marks in canonical order).  Models the
`unicodedata.normalize("NFD", ch)` collaborator on the Vietnamese
repertoire; all other codepoints are atomic. -/
def nfdPairs : List (Char × List Char) := [
  ('á', ['a', ACUTE]), ('à', ['a', GRAVE]), ('ả', ['a', HOOK]),
  ('ã', ['a', TILDE]), ('ạ', ['a', DOTBELOW]),
  ('ă', ['a', BREVE]), ('ắ', ['a', BREVE, ACUTE]), ('ằ', ['a', BREVE, GRAVE]),
  ('ẳ', ['a', BREVE, HOOK]), ('ẵ', ['a', BREVE, TILDE]), ('ặ', ['a', DOTBELOW, BREVE]),
  ('â', ['a', CIRC]), ('ấ', ['a', CIRC, ACUTE]), ('ầ', ['a', CIRC, GRAVE]),
  ('ẩ', ['a', CIRC, HOOK]), ('ẫ', ['a', CIRC, TILDE]), ('ậ', ['a', DOTBELOW, CIRC]),
  ('é', ['e', ACUTE]), ('è', ['e', GRAVE]), ('ẻ', ['e', HOOK]),
  ('ẽ', ['e', TILDE]), ('ẹ', ['e', DOTBELOW]),
  ('ê', ['e', CIRC]), ('ế', ['e', CIRC, ACUTE]), ('ề', ['e', CIRC, GRAVE]),
  ('ể', ['e', CIRC, HOOK]), ('ễ', ['e', CIRC, TILDE]), ('ệ', ['e', DOTBELOW, CIRC]),
  ('í', ['i', ACUTE]), ('ì', ['i', GRAVE]), ('ỉ', ['i', HOOK]),
  ('ĩ', ['i', TILDE]), ('ị', ['i', DOTBELOW]),
  ('ó', ['o', ACUTE]), ('ò', ['o', GRAVE]), ('ỏ', ['o', HOOK]),
  ('õ', ['o', TILDE]), ('ọ', ['o', DOTBELOW]),
  ('ô', ['o', CIRC]), ('ố', ['o', CIRC, ACUTE]), ('ồ', ['o', CIRC, GRAVE]),
  ('ổ', ['o', CIRC, HOOK]), ('ỗ', ['o', CIRC, TILDE]), ('ộ', ['o', DOTBELOW, CIRC]),
  ('ơ', ['o', HORN]), ('ớ', ['o', HORN, ACUTE]), ('ờ', ['o', HORN, GRAVE]),
  ('ở', ['o', HORN, HOOK]), ('ỡ', ['o', HORN, TILDE]), ('ợ', ['o', HORN, DOTBELOW]),
  ('ú', ['u', ACUTE]), ('ù', ['u', GRAVE]), ('ủ', ['u', HOOK]),
  ('ũ', ['u', TILDE]), ('ụ', ['u', DOTBELOW]),
  ('ư', ['u', HORN]), ('ứ', ['u', HORN, ACUTE]), ('ừ', ['u', HORN, GRAVE]),
  ('ử', ['u', HORN, HOOK]), ('ữ', ['u', HORN, TILDE]), ('ự', ['u', HORN, DOTBELOW]),
  ('ý', ['y', ACUTE]), ('ỳ', ['y', GRAVE]), ('ỷ', ['y', HOOK]),
  ('ỹ', ['y', TILDE]), ('ỵ', ['y', DOTBELOW]),
  ('Á', ['A', ACUTE]), ('À', ['A', GRAVE]), ('Ả', ['A', HOOK]),
  ('Ã', ['A', TILDE]), ('Ạ', ['A', DOTBELOW]),
  ('Ă', ['A', BREVE]), ('Ắ', ['A', BREVE, ACUTE]), ('Ằ', ['A', BREVE, GRAVE]),
  ('Ẳ', ['A', BREVE, HOOK]), ('Ẵ', ['A', BREVE, TILDE]), ('Ặ', ['A', DOTBELOW, BREVE]),
  ('Â', ['A', CIRC]), ('Ấ', ['A', CIRC, ACUTE]), ('Ầ', ['A', CIRC, GRAVE]),
  ('Ẩ', ['A', CIRC, HOOK]), ('Ẫ', ['A', CIRC, TILDE]), ('Ậ', ['A', DOTBELOW, CIRC]),
  ('É', ['E', ACUTE]), ('È', ['E', GRAVE]), ('Ẻ', ['E', HOOK]),
  ('Ẽ', ['E', TILDE]), ('Ẹ', ['E', DOTBELOW]),
  ('Ê', ['E', CIRC]), ('Ế', ['E', CIRC, ACUTE]), ('Ề', ['E', CIRC, GRAVE]),
  ('Ể', ['E', CIRC, HOOK]), ('Ễ', ['E', CIRC, TILDE]), ('Ệ', ['E', DOTBELOW, CIRC]),
  ('Í', ['I', ACUTE]), ('Ì', ['I', GRAVE]), ('Ỉ', ['I', HOOK]),
  ('Ĩ', ['I', TILDE]), ('Ị', ['I', DOTBELOW]),
  ('Ó', ['O', ACUTE]), ('Ò', ['O', GRAVE]), ('Ỏ', ['O', HOOK]),
  ('Õ', ['O', TILDE]), ('Ọ', ['O', DOTBELOW]),
  ('Ô', ['O', CIRC]), ('Ố', ['O', CIRC, ACUTE]), ('Ồ', ['O', CIRC, GRAVE]),
  ('Ổ', ['O', CIRC, HOOK]), ('Ỗ', ['O', CIRC, TILDE]), ('Ộ', ['O', DOTBELOW, CIRC]),
  ('Ơ', ['O', HORN]), ('Ớ', ['O', HORN, ACUTE]), ('Ờ', ['O', HORN, GRAVE]),
  ('Ở', ['O', HORN, HOOK]), ('Ỡ', ['O', HORN, TILDE]), ('Ợ', ['O', HORN, DOTBELOW]),
  ('Ú', ['U', ACUTE]), ('Ù', ['U', GRAVE]), ('Ủ', ['U', HOOK]),
  ('Ũ', ['U', TILDE]), ('Ụ', ['U', DOTBELOW]),
  ('Ư', ['U', HORN]), ('Ứ', ['U', HORN, ACUTE]), ('Ừ', ['U', HORN, GRAVE]),
  ('Ử', ['U', HORN, HOOK]), ('Ữ', ['U', HORN, TILDE]), ('Ự', ['U', HORN, DOTBELOW]),
  ('Ý', ['Y', ACUTE]), ('Ỳ', ['Y', GRAVE]), ('Ỷ', ['Y', HOOK]),
  ('Ỹ', ['Y', TILDE]), ('Ỵ', ['Y', DOTBELOW]),
  ('ä', ['a', DIAERESIS]), ('Ä', ['A', DIAERESIS]), ('ӓ', ['а', DIAERESIS]),
  ('Ṍ', ['O', TILDE, ACUTE]), ('ṍ', ['o', TILDE, ACUTE])]

/-- Canonical decomposition of a single character (NFD), as the list
base :: combining marks.  Characters outside the modelled repertoire are
atomic. -/
def nfd (c : Char) : List Char := (assoc nfdPairs c).getD [c]

/-- The base letter of the canonical decomposition (`nfd[0]` in the source). -/
def nfdHead (c : Char) : Char := (nfd c).headD c

/-- The combining marks of the canonical decomposition (`nfd[1:]`). -/
def nfdMarks (c : Char) : List Char := (nfd c).drop 1

/-- Canonical combining class of the modelled combining marks (horn 216,
dot below 220, the remaining marks 230); starters have class 0. -/
def ccc (c : Char) : Nat :=
  if c = HORN then 216
  else if c = DOTBELOW then 220
  else if c = ACUTE ∨ c = GRAVE ∨ c = HOOK ∨ c = TILDE ∨ c = CIRC ∨ c = BREVE ∨
          c = DIAERESIS then 230
  else 0

/-- Stable insertion of a combining mark by canonical combining class. -/
def insMark (c : Char) : List Char → List Char
  | [] => [c]
  | d :: ds => if ccc d < ccc c then d :: insMark c ds else c :: d :: ds

/-- Canonical (stable) reordering of combining marks, as performed by
Unicode normalization before composition. -/
def sortMarks : List Char → List Char
  | [] => []
  | c :: cs => insMark c (sortMarks cs)

/-- Look up the precomposed character whose canonical decomposition is the
given base::marks sequence. -/
def nfcLookup (l : List Char) : Option Char :=
  (nfdPairs.find? (fun p => p.2 == l)).map (fun p => p.1)

/-- Canonical composition (NFC) of a single base::marks sequence: reorder
the marks canonically, then replace by the precomposed character when one
exists, otherwise leave the sequence decomposed.  Models
`unicodedata.normalize("NFC", base + "".join(marks))` from the source. -/
def nfcCompose (l : List Char) : List Char :=
  match l with
  | [] => []
  | b :: ms =>
    let sorted := b :: sortMarks ms
    match nfcLookup sorted with
    | some c => [c]
    | none => sorted

/-- Case-folding table (`str.lower`): ASCII letters plus the Vietnamese
repertoire; all other codepoints case-map to themselves. -/
def lowerPairs : List (Char × Char) :=
  ((List.range 26).map (fun i => (Char.ofNat (65 + i), Char.ofNat (97 + i)))) ++
  [('Á', 'á'), ('À', 'à'), ('Ả', 'ả'), ('Ã', 'ã'), ('Ạ', 'ạ'),
   ('Ă', 'ă'), ('Ắ', 'ắ'), ('Ằ', 'ằ'), ('Ẳ', 'ẳ'), ('Ẵ', 'ẵ'), ('Ặ', 'ặ'),
   ('Â', 'â'), ('Ấ', 'ấ'), ('Ầ', 'ầ'), ('Ẩ', 'ẩ'), ('Ẫ', 'ẫ'), ('Ậ', 'ậ'),
   ('É', 'é'), ('È', 'è'), ('Ẻ', 'ẻ'), ('Ẽ', 'ẽ'), ('Ẹ', 'ẹ'),
   ('Ê', 'ê'), ('Ế', 'ế'), ('Ề', 'ề'), ('Ể', 'ể'), ('Ễ', 'ễ'), ('Ệ', 'ệ'),
   ('Í', 'í'), ('Ì', 'ì'), ('Ỉ', 'ỉ'), ('Ĩ', 'ĩ'), ('Ị', 'ị'),
   ('Ó', 'ó'), ('Ò', 'ò'), ('Ỏ', 'ỏ'), ('Õ', 'õ'), ('Ọ', 'ọ'),
   ('Ô', 'ô'), ('Ố', 'ố'), ('Ồ', 'ồ'), ('Ổ', 'ổ'), ('Ỗ', 'ỗ'), ('Ộ', 'ộ'),
   ('Ơ', 'ơ'), ('Ớ', 'ớ'), ('Ờ', 'ờ'), ('Ở', 'ở'), ('Ỡ', 'ỡ'), ('Ợ', 'ợ'),
   ('Ú', 'ú'), ('Ù', 'ù'), ('Ủ', 'ủ'), ('Ũ', 'ũ'), ('Ụ', 'ụ'),
   ('Ư', 'ư'), ('Ứ', 'ứ'), ('Ừ', 'ừ'), ('Ử', 'ử'), ('Ữ', 'ữ'), ('Ự', 'ự'),
   ('Ý', 'ý'), ('Ỳ', 'ỳ'), ('Ỷ', 'ỷ'), ('Ỹ', 'ỹ'), ('Ỵ', 'ỵ'),
   ('Đ', 'đ'), ('Ä', 'ä'), ('Ṍ', 'ṍ')]

/-- Case-fold one character (`str.lower` on a single character). -/
def toLowerChar (c : Char) : Char := (assoc lowerPairs c).getD c

/-- Case-fold a string (`token.lower()` in the source). -/
def strLower (s : List Char) : List Char := s.map toLowerChar

/-- Alphabetic characters beyond ASCII in the modelled repertoire:
the Vietnamese precomposed letters, đ/Đ, and the confusable letters of the
homoglyph map. -/
def alphaExtra : List Char :=
  nfdPairs.map (fun p => p.1) ++ ['đ', 'Đ'] ++
  ['а', 'е', 'р', 'с', 'і', 'α', 'ο', 'ε']

/-- Model of Python `str.isalpha` on one character over the modelled
repertoire. -/
def isAlphaChar (c : Char) : Bool :=
  (65 ≤ c.toNat && c.toNat ≤ 90) || (97 ≤ c.toNat && c.toNat ≤ 122) ||
  alphaExtra.contains c

/-- First-occurrence substring search: `low.find(pat)` / leftmost
`re.search` match position.  Returns the index of the first occurrence of
`pat` in `s`, if any. -/
def strFind (pat : List Char) : List Char → Option Nat
  | [] => if pat = [] then some 0 else none
  | c :: cs => if pat.isPrefixOf (c :: cs) then some 0
               else (strFind pat cs).map (fun n => n + 1)

/-- Substring containment (`pat in low`, or `re.search(pat, low)` for a
plain-text pattern). -/
def containsSub (s pat : List Char) : Bool := (strFind pat s).isSome

/-- Suffix test, modelling an `X$` regex alternative. -/
def endsWithSeq (s pat : List Char) : Bool := pat.isSuffixOf s

/-- Uppercase hexadecimal digit. -/
def hexDigit (n : Nat) : Char :=
  if n < 10 then Char.ofNat (48 + n) else Char.ofNat (55 + n)

/-- Four-or-more-digit uppercase hexadecimal rendering of a codepoint,
modelling Python `f"{cp:04X}"`. -/
def hex4 (n : Nat) : List Char :=
  let d3 := n / 4096 % 16
  let d2 := n / 256 % 16
  let d1 := n / 16 % 16
  let d0 := n % 16
  if n < 65536 then [hexDigit d3, hexDigit d2, hexDigit d1, hexDigit d0]
  else hex4 (n / 65536) ++ [hexDigit d3, hexDigit d2, hexDigit d1, hexDigit d0]

/-- Unicode character names (`unicodedata.name`), modelled for the
confusable repertoire of the homoglyph map; `none` models the `ValueError`
branch and is also the default outside the modelled repertoire, where the
scans below do not distinguish names without script keywords from missing
names. -/
def nameTable : List (Char × List Char) := [
  ('а', "CYRILLIC SMALL LETTER A".toList),
  ('е', "CYRILLIC SMALL LETTER IE".toList),
  ('р', "CYRILLIC SMALL LETTER ER".toList),
  ('с', "CYRILLIC SMALL LETTER ES".toList),
  ('і', "CYRILLIC SMALL LETTER BYELORUSSIAN-UKRAINIAN I".toList),
  ('α', "GREEK SMALL LETTER ALPHA".toList),
  ('ο', "GREEK SMALL LETTER OMICRON".toList),
  ('ε', "GREEK SMALL LETTER EPSILON".toList)]

/-- `unicodedata.name` as an Option (models the raising call). -/
def unicodedataName (c : Char) : Option (List Char) := assoc nameTable c

/-- Combining marks of the modelled repertoire (canonical combining class
above zero). -/
def isCombiningChar (c : Char) : Bool := 0 < ccc c

/-- Full-string canonical composition: decompose every character, then
recompose each starter together with its following combining marks.
Models `unicodedata.normalize("NFC", text)`, the collaborator used by
`normalize_nfc` in `src/preprocess/text_normalizer.py`. -/
def recomposeGo : Nat → List Char → List Char
  | _, [] => []
  | 0, l => l
  | fuel + 1, c :: rest =>
    nfcCompose (c :: rest.takeWhile isCombiningChar) ++
      recomposeGo fuel (rest.dropWhile isCombiningChar)

def normalize_nfc (s : List Char) : List Char :=
  recomposeGo (s.flatMap nfd).length (s.flatMap nfd)

/-! ## Module-level tables of `vn_validator.py` -/

/-- `INVISIBLE_CODEPOINTS` (vn_validator.py lines 39-46): ZWSP, ZWNJ, ZWJ,
word joiner, NBSP, BOM. -/
def INVISIBLE_CODEPOINTS : List Char :=
  ['\u200B', '\u200C', '\u200D', '\u2060', '\u00A0', '\uFEFF']

/-- `COMBINING_TONE_MARKS` (lines 50-56): acute, grave, hook above, tilde,
dot below. -/
def COMBINING_TONE_MARKS : List Char := [ACUTE, GRAVE, HOOK, TILDE, DOTBELOW]

/-- The per-character single-tone property the clamp pass establishes: the
canonical decomposition carries at most one tone mark.  It fails on raw
input: the modelled Ṍ decomposes to tilde + acute, two of the tone marks. -/
abbrev single_tone_ok (c : Char) : Prop :=
  ((nfd c).drop 1).countP (fun m => decide (m ∈ COMBINING_TONE_MARKS)) ≤ 1

/-- `COMBINING_VIET_MARKS` (lines 59-63): circumflex, breve, horn. -/
def COMBINING_VIET_MARKS : List Char := [CIRC, BREVE, HORN]

/-- `COMBINING_MAJOR_VIET` (lines 415-419): same three quality marks as
`COMBINING_VIET_MARKS`. -/
def COMBINING_MAJOR_VIET : List Char := [CIRC, BREVE, HORN]

/-- `ALLOWED_COMBINING` (line 66, rebound identically at line 421):
tone marks plus quality marks. -/
def ALLOWED_COMBINING : List Char := COMBINING_TONE_MARKS ++ COMBINING_MAJOR_VIET

/-- `VOWELS_BASE` (line 83). -/
def VOWELS_BASE : List Char :=
  ['a', 'e', 'i', 'o', 'u', 'y', 'A', 'E', 'I', 'O', 'U', 'Y']

/-- `VIET_VOWEL_PRECOMPOSED` (line 85). -/
def VIET_VOWEL_PRECOMPOSED : List Char :=
  ['a', 'ă', 'â', 'e', 'ê', 'i', 'o', 'ô', 'ơ', 'u', 'ư', 'y',
   'A', 'Ă', 'Â', 'E', 'Ê', 'I', 'O', 'Ô', 'Ơ', 'U', 'Ư', 'Y']

/-- `HOMOGLYPH_SAFE_MAP` (lines 403-413): Cyrillic a/ie/er/es/i and Greek
alpha/omicron/epsilon mapped to their Latin look-alikes. -/
def HOMOGLYPH_SAFE_MAP : List (Char × Char) :=
  [('а', 'a'), ('е', 'e'), ('р', 'p'), ('с', 'c'), ('і', 'i'),
   ('α', 'a'), ('ο', 'o'), ('ε', 'e')]

/-- `is_clearly_non_latin` (lines 70-80): look up the character name
(`ValueError` modelled by `none`), then flag alphabetic characters whose
name mentions a non-Latin script. -/
def is_clearly_non_latin (ch : Char) : Bool :=
  match unicodedataName ch with
  | none => false
  | some name =>
    if isAlphaChar ch then
      (["GREEK", "CYRILLIC", "HEBREW", "ARABIC", "DEVANAGARI", "CJK",
        "HIRAGANA", "KATAKANA"].map String.toList).any
        (fun k => containsSub name k)
    else false

/-- The token pattern `[A-Za-zÀ-ỹ\-]+` (lines 108 and 592): ASCII letters,
the codepoint range U+00C0..U+1EF9, and the hyphen. -/
def isTokenChar (c : Char) : Bool :=
  (65 ≤ c.toNat && c.toNat ≤ 90) || (97 ≤ c.toNat && c.toNat ≤ 122) ||
  (192 ≤ c.toNat && c.toNat ≤ 7929) || c = '-'

/-- `local_snippet` (lines 88-91). -/
def local_snippet (text : List Char) (start stop : Nat) : List Char :=
  let s := start - 10
  let e := min text.length (stop + 10)
  (text.take e).drop s

/-! ## Tone-Placement Resolver: the Validator's `_expected_tone_index`
(lines 296-367) and the Fixer's `expected_tone_index_heuristic`
(lines 519-584), decomposed rule by rule. -/

/-- `_nfd_marks` (lines 369-371). -/
def _nfd_marks (ch : Char) : List Char := (nfd ch).drop 1

/-- `_is_vowel_letter` (lines 373-376): NFD base in `VOWELS_BASE`, or the
character itself among the precomposed Vietnamese vowels. -/
def _is_vowel_letter (ch : Char) : Bool :=
  decide (nfdHead ch ∈ VOWELS_BASE) || decide (ch ∈ VIET_VOWEL_PRECOMPOSED)

/-- `_find_char_with_base_and_mark` (lines 378-385). -/
def _find_char_with_base_and_mark (chars : List Char) (baseSet : List Char)
    (needMark : Char) : Option Nat :=
  chars.enum.findSome? (fun p =>
    if (nfd p.2).headD p.2 ∈ baseSet ∧ needMark ∈ (nfd p.2).drop 1
    then some p.1 else none)

/-- Vowel positions in `_expected_tone_index` (line 311). -/
def v_vowel_indices (token : List Char) : List Nat :=
  token.enum.filterMap (fun p => if _is_vowel_letter p.2 then some p.1 else none)

/-- The quality-mark preference set `prefers` (line 321). -/
def prefers : List Char := [CIRC, BREVE, HORN]

/-- Vowels carrying a quality diacritic, `preferred` (lines 320-322). -/
def v_preferred (token : List Char) : List Nat :=
  (v_vowel_indices token).filter (fun i =>
    (_nfd_marks (token.getD i ' ')).any (fun m => decide (m ∈ prefers)))

/-- The seventeen final consonants shared by both coda regexes:
b c d đ g h k l m n p q r s t v x. -/
def codaConsonantClass : List Char :=
  ['b', 'c', 'd', 'đ', 'g', 'h', 'k', 'l', 'm', 'n',
   'p', 'q', 'r', 's', 't', 'v', 'x']

/-- The Validator's coda regex
`[bcdđghklmnpqrstvxỳỵỷỹý]$|ng$|nh$|ch$` (line 331): last character in the
class (the seventeen consonants together with ỳ ỵ ỷ ỹ ý), or one of the
two-letter endings. -/
def validatorCodaCheck (low : List Char) : Bool :=
  (match low.getLast? with
   | some c => decide (c ∈ codaConsonantClass ++ ['ỳ', 'ỵ', 'ỷ', 'ỹ', 'ý'])
   | none => false) ||
  endsWithSeq low ['n', 'g'] || endsWithSeq low ['n', 'h'] || endsWithSeq low ['c', 'h']

/-- Rule `uyê` of `_expected_tone_index` (lines 335-340). -/
def v_uye_rule (token : List Char) : Option Nat :=
  if containsSub (strLower token) ['u', 'y', 'ê'] then
    _find_char_with_base_and_mark token ['e', 'E'] CIRC
  else none

/-- Rule `iê/uô/ươ + coda` of `_expected_tone_index` (lines 342-347):
with a coda, the first character that is ê, then ô, then ơ. -/
def v_coda_rule (token : List Char) : Option Nat :=
  if validatorCodaCheck (strLower token) then
    match _find_char_with_base_and_mark token ['e', 'E'] CIRC with
    | some i => some i
    | none =>
      match _find_char_with_base_and_mark token ['o', 'O'] CIRC with
      | some i => some i
      | none => _find_char_with_base_and_mark token ['o', 'O'] HORN
  else none

/-- Search from the end of the token, `for i in range(len(chars)-1,-1,-1)`
(lines 351-353 and 572-574). -/
def lastIndexWhere (p : Char → Bool) (l : List Char) : Option Nat :=
  match l.reverse.findIdx? p with
  | some j => some (l.length - 1 - j)
  | none => none

/-- Rule `ia/ua/ưa` without coda of `_expected_tone_index` (lines 349-353):
the last character whose `.lower()` is 'a'. -/
def v_ia_rule (token : List Char) : Option Nat :=
  if ¬ validatorCodaCheck (strLower token) ∧
     (endsWithSeq (strLower token) ['i', 'a'] || endsWithSeq (strLower token) ['u', 'a'] ||
      endsWithSeq (strLower token) ['ư', 'a'])
  then lastIndexWhere (fun ch => toLowerChar ch = 'a') token
  else none

/-- Rule `oa/oe/uy` of `_expected_tone_index` (lines 355-364): for the first
cluster found, the position after it, provided it is a vowel letter. -/
def v_oa_rule (token : List Char) : Option Nat :=
  [['o', 'a'], ['o', 'e'], ['u', 'y']].findSome? (fun pat =>
    match strFind pat (strLower token) with
    | some start =>
      let second := start + 1
      if second < token.length ∧ _is_vowel_letter (token.getD second ' ')
      then some second else none
    | none => none)

/-- `VietnameseTextValidator._expected_tone_index` (lines 296-367). -/
def _expected_tone_index (token : List Char) : Option Nat :=
  if v_vowel_indices token = [] then none
  else if (v_vowel_indices token).length = 1 then some ((v_vowel_indices token).headD 0)
  else if (v_preferred token).length = 1 then some ((v_preferred token).headD 0)
  else
    match v_uye_rule token with
    | some i => some i
    | none =>
      match v_coda_rule token with
      | some i => some i
      | none =>
        match v_ia_rule token with
        | some i => some i
        | none => v_oa_rule token

/-- Vowel positions in `expected_tone_index_heuristic` (lines 533-537):
NFD base in `VOWELS_BASE`. -/
def h_vowels (token : List Char) : List Nat :=
  token.enum.filterMap (fun p =>
    if decide ((nfd p.2).headD p.2 ∈ VOWELS_BASE) then some p.1 else none)

/-- The quality-mark preference set `prefer_marks` (line 544). -/
def prefer_marks : List Char := [CIRC, BREVE, HORN]

/-- `preferred` of the heuristic (line 545). -/
def h_preferred (token : List Char) : List Nat :=
  (h_vowels token).filter (fun i =>
    ((nfd (token.getD i ' ')).drop 1).any (fun m => decide (m ∈ prefer_marks)))

/-- The heuristic's coda regex `(ng|nh|ch|[bcdđghklmnpqrstvx])$`
(line 552). -/
def heuristicCodaCheck (low : List Char) : Bool :=
  endsWithSeq low ['n', 'g'] || endsWithSeq low ['n', 'h'] || endsWithSeq low ['c', 'h'] ||
  (match low.getLast? with
   | some c => decide (c ∈ codaConsonantClass)
   | none => false)

/-- Modelled from the spec: coda detection as the specification states it —
"a suffix match against a fixed set of single/double final consonants
(b,c,d,đ,g,h,k,l,m,n,p,q,r,s,t,v,x,ng,nh,ch)".  This is the comparison
target for the claim that the Resolver detects a coda exactly on these
endings. -/
def coda_spec (low : List Char) : Bool :=
  (codaConsonantClass.any (fun c => endsWithSeq low [c])) ||
  endsWithSeq low ['n', 'g'] || endsWithSeq low ['n', 'h'] || endsWithSeq low ['c', 'h']

/-- Rule `uyê` of the heuristic (lines 555-559): first character whose base
case-folds to 'e' and which carries the circumflex. -/
def h_uye_rule (token : List Char) : Option Nat :=
  if containsSub (strLower token) ['u', 'y', 'ê'] then
    token.enum.findSome? (fun p =>
      if toLowerChar ((nfd p.2).headD p.2) = 'e' ∧ CIRC ∈ (nfd p.2).drop 1
      then some p.1 else none)
  else none

/-- One step of the heuristic coda-rule loop (lines 563-568). -/
def h_find_base_mark (token : List Char) (baseNeeded markNeeded : Char) : Option Nat :=
  token.enum.findSome? (fun p =>
    if toLowerChar ((nfd p.2).headD p.2) = baseNeeded ∧ markNeeded ∈ (nfd p.2).drop 1
    then some p.1 else none)

/-- Rule `iê/uô/ươ + coda` of the heuristic (lines 561-568). -/
def h_coda_rule (token : List Char) : Option Nat :=
  if heuristicCodaCheck (strLower token) then
    match h_find_base_mark token 'e' CIRC with
    | some i => some i
    | none =>
      match h_find_base_mark token 'o' CIRC with
      | some i => some i
      | none => h_find_base_mark token 'o' HORN
  else none

/-- Rule `ia/ua/ưa` without coda of the heuristic (lines 570-574): the last
character whose NFD base case-folds to 'a'. -/
def h_ia_rule (token : List Char) : Option Nat :=
  if ¬ heuristicCodaCheck (strLower token) ∧
     (endsWithSeq (strLower token) ['i', 'a'] || endsWithSeq (strLower token) ['u', 'a'] ||
      endsWithSeq (strLower token) ['ư', 'a'])
  then lastIndexWhere (fun ch => toLowerChar ((nfd ch).headD ch) = 'a') token
  else none

/-- Rule `oa/oe/uy` of the heuristic (lines 576-582). -/
def h_oa_rule (token : List Char) : Option Nat :=
  [['o', 'a'], ['o', 'e'], ['u', 'y']].findSome? (fun pat =>
    match strFind pat (strLower token) with
    | some pos =>
      let second := pos + 1
      if second < token.length ∧
         toLowerChar ((nfd (token.getD second ' ')).headD (token.getD second ' ')) ∈
           ['a', 'e', 'i', 'o', 'u', 'y']
      then some second else none
    | none => none)

/-- `expected_tone_index_heuristic` (lines 519-584). -/
def expected_tone_index_heuristic (token : List Char) : Option Nat :=
  if h_vowels token = [] then none
  else if (h_vowels token).length = 1 then some ((h_vowels token).headD 0)
  else if (h_preferred token).length = 1 then some ((h_preferred token).headD 0)
  else
    match h_uye_rule token with
    | some i => some i
    | none =>
      match h_coda_rule token with
      | some i => some i
      | none =>
        match h_ia_rule token with
        | some i => some i
        | none => h_oa_rule token

/-! ## Fixers (lines 423-601) -/

/-- `strip_invisible_characters` (lines 423-428). -/
def strip_invisible_characters (nfc_text : List Char) : List Char :=
  nfc_text.filter (fun ch => decide (ch ∉ INVISIBLE_CODEPOINTS))

/-- `replace_safe_homoglyphs` (lines 430-435). -/
def replace_safe_homoglyphs (nfc_text : List Char) : List Char :=
  nfc_text.map (fun ch => (assoc HOMOGLYPH_SAFE_MAP ch).getD ch)

/-- The mark filter of `clamp_to_single_tone_per_letter` (lines 450-463):
keep the first tone mark, keep quality marks, drop everything else. -/
def clampMarks : List Char → Bool → List Char
  | [], _ => []
  | m :: ms, seenTone =>
    if m ∈ COMBINING_TONE_MARKS then
      if seenTone then clampMarks ms seenTone
      else m :: clampMarks ms true
    else if m ∈ COMBINING_MAJOR_VIET then m :: clampMarks ms seenTone
    else clampMarks ms seenTone

/-- The loop body of `clamp_to_single_tone_per_letter` for one character
(lines 444-464): non-alphabetic characters pass through; alphabetic
characters are decomposed, their marks filtered by `clampMarks`, and
recomposed (the recomposition may be a multi-character string). -/
def clampChar (ch : Char) : List Char :=
  if ¬ isAlphaChar ch then [ch]
  else nfcCompose (nfdHead ch :: clampMarks (nfdMarks ch) false)

/-- `clamp_to_single_tone_per_letter` (lines 437-465). -/
def clamp_to_single_tone_per_letter (nfc_text : List Char) : List Char :=
  (nfc_text.map clampChar).flatten

/-- Tone-bearing positions of a token, the loop at lines 482-485 of
`move_tone_mark_within_token` (and `_tone_positions_in_token`,
lines 286-294, which runs the same per-character NFD analysis). -/
def tone_positions (token : List Char) : List Nat :=
  token.enum.filterMap (fun p =>
    if ((nfd p.2).drop 1).any (fun m => decide (m ∈ COMBINING_TONE_MARKS))
    then some p.1 else none)

/-- `move_tone_mark_within_token` (lines 467-517): with exactly one
tone-bearing letter and an unambiguous expected position, remove the tone
mark from the current letter and append it to the expected letter,
recomposing both; otherwise return the token unchanged. -/
def move_tone_mark_within_token (token : List Char) : List Char :=
  match tone_positions token with
  | [toneIdx] =>
    match expected_tone_index_heuristic token with
    | none => token
    | some expectedIdx =>
      if expectedIdx = toneIdx then token
      else
        let cT := token.getD toneIdx ' '
        let baseT := (nfd cT).headD cT
        let marksT := ((nfd cT).drop 1).filter (fun m => decide (m ∉ COMBINING_TONE_MARKS))
        let cE := token.getD expectedIdx ' '
        let baseE := (nfd cE).headD cE
        let marksE := (nfd cE).drop 1
        let origTone := ((nfd cT).drop 1).find? (fun m => decide (m ∈ COMBINING_TONE_MARKS))
        let marksE2 :=
          match origTone with
          | some tn =>
            if marksE.any (fun m => decide (m ∈ COMBINING_TONE_MARKS)) then marksE
            else marksE ++ [tn]
          | none => marksE
        let cells := token.map (fun c => [c])
        let cells := cells.set toneIdx (nfcCompose (baseT :: marksT))
        let cells := cells.set expectedIdx (nfcCompose (baseE :: marksE2))
        cells.flatten
  | _ => token

/-- `fix_tone_placement_in_text` (lines 587-601): copy each inter-token
segment verbatim and apply `move_tone_mark_within_token` to each maximal
letter/hyphen run. -/
def fixToneGo : Nat → List Char → List Char
  | _, [] => []
  | 0, c :: cs => c :: cs
  | fuel + 1, c :: cs =>
    if isTokenChar c then
      move_tone_mark_within_token ((c :: cs).takeWhile isTokenChar) ++
        fixToneGo fuel ((c :: cs).dropWhile isTokenChar)
    else
      (c :: cs).takeWhile (fun d => ! isTokenChar d) ++
        fixToneGo fuel ((c :: cs).dropWhile (fun d => ! isTokenChar d))

def fix_tone_placement_in_text (nfc_text : List Char) : List Char :=
  fixToneGo nfc_text.length nfc_text

/-- The maximal-run decomposition underlying the token pattern: the text
split into alternating runs, each labelled `true` when it is a
letter/hyphen token and `false` when it is an inter-token segment. -/
def segmentsGo : Nat → List Char → List (Bool × List Char)
  | _, [] => []
  | 0, _ :: _ => []
  | fuel + 1, c :: cs =>
    if isTokenChar c then
      (true, (c :: cs).takeWhile isTokenChar) ::
        segmentsGo fuel ((c :: cs).dropWhile isTokenChar)
    else
      (false, (c :: cs).takeWhile (fun d => ! isTokenChar d)) ::
        segmentsGo fuel ((c :: cs).dropWhile (fun d => ! isTokenChar d))

def segments (s : List Char) : List (Bool × List Char) :=
  segmentsGo s.length s

/-! ## Validator (lines 98-397) -/

/-- `ValidationIssue` (lines 14-21).  The `end` field of the dataclass is
named `stop` here because `end` is reserved in Lean. -/
structure ValidationIssue where
  issue_type : List Char
  message : List Char
  start : Nat
  stop : Nat
  snippet : List Char
  suggestion : Option (List Char)
deriving DecidableEq, Repr

/-- `ValidationReport` (lines 23-31). -/
structure ValidationReport where
  issues : List ValidationIssue
deriving DecidableEq, Repr

/-- `scan_invisible_chars` (lines 123-133). -/
def scan_invisible_chars (text : List Char) : List ValidationIssue :=
  text.enum.filterMap (fun p =>
    if p.2 ∈ INVISIBLE_CODEPOINTS then
      some { issue_type := "INVISIBLE_CHAR".toList
             message := "Zero-width or non-breaking character U+".toList ++
               hex4 p.2.toNat ++ " detected.".toList
             start := p.1, stop := p.1 + 1
             snippet := local_snippet text p.1 (p.1 + 1)
             suggestion := some "Remove this character.".toList }
    else none)

/-- `scan_non_latin_confusables` (lines 137-147). -/
def scan_non_latin_confusables (text : List Char) : List ValidationIssue :=
  text.enum.filterMap (fun p =>
    if is_clearly_non_latin p.2 then
      some { issue_type := "CONFUSABLE".toList
             message := "Non-Latin letter _".toList ++ [p.2] ++
               "_ (likely confusable) found.".toList
             start := p.1, stop := p.1 + 1
             snippet := local_snippet text p.1 (p.1 + 1)
             suggestion := some "Replace with the correct Latin letter.".toList }
    else none)

/-- The per-character issues of `scan_combining_sequences` (lines 151-204),
emitted in source order: multi-tone, marks on a non-vowel, then one issue
per unsupported mark. -/
def combiningIssuesAt (text : List Char) (i : Nat) (ch : Char) : List ValidationIssue :=
  if ¬ isAlphaChar ch then []
  else
    let base := (nfd ch).headD ch
    let comb := (nfd ch).drop 1
    let toneCount := comb.countP (fun c => decide (c ∈ COMBINING_TONE_MARKS))
    (if toneCount > 1 then
      [{ issue_type := "COMBINING".toList
         message := "A letter carries more than one tone mark.".toList
         start := i, stop := i + 1
         snippet := local_snippet text i (i + 1)
         suggestion := some "Keep only one tone mark (acute/grave/hook/tilde/dot-below).".toList }]
     else []) ++
    (if comb ≠ [] ∧ toLowerChar base ∉ ['a', 'e', 'i', 'o', 'u', 'y'] then
      [{ issue_type := "COMBINING".toList
         message := "Combining mark(s) applied on a non-vowel letter.".toList
         start := i, stop := i + 1
         snippet := local_snippet text i (i + 1)
         suggestion := some "Move the mark to the correct vowel.".toList }]
     else []) ++
    comb.filterMap (fun c =>
      if c ∉ ALLOWED_COMBINING then
        some { issue_type := "COMBINING".toList
               message := "Unsupported combining mark U+".toList ++ hex4 c.toNat ++
                 " for Vietnamese.".toList
               start := i, stop := i + 1
               snippet := local_snippet text i (i + 1)
               suggestion := some "Use Vietnamese tone/diacritic marks only.".toList }
      else none)

/-- `scan_combining_sequences` (lines 151-204). -/
def scan_combining_sequences (text : List Char) : List ValidationIssue :=
  (text.enum.map (fun p => combiningIssuesAt text p.1 p.2)).flatten

/-- The per-character issues of `scan_fake_letters` (lines 208-247). -/
def fakeIssuesAt (text : List Char) (idx : Nat) (ch : Char) : List ValidationIssue :=
  let base := (nfd ch).headD ch
  let comb := (nfd ch).drop 1
  (if (base = 'd' ∨ base = 'D') ∧ comb ≠ [] ∧
      (comb.filter (fun c => decide (c ∉ ALLOWED_COMBINING))) ≠ [] then
    [{ issue_type := "FAKE_LETTER".toList
       message := "Possible fake letter d-stroke constructed by overlays.".toList
       start := idx, stop := idx + 1
       snippet := local_snippet text idx (idx + 1)
       suggestion := some "Use the precomposed form (U+0111) or (U+0110).".toList }]
   else []) ++
  (if (base = 'o' ∨ base = 'O' ∨ base = 'u' ∨ base = 'U') ∧ comb ≠ [] ∧
      ¬ (comb.any (fun c => c = HORN)) ∧
      (comb.filter (fun c => decide (c ∉ ALLOWED_COMBINING.filter (fun m => m ≠ HORN)))) ≠ [] then
    [{ issue_type := "FAKE_LETTER".toList
       message := "Suspicious attempt to mimic horned vowels without using horn (U+031B).".toList
       start := idx, stop := idx + 1
       snippet := local_snippet text idx (idx + 1)
       suggestion := some "Use precomposed horned vowels or add COMBINING HORN.".toList }]
   else [])

/-- `scan_fake_letters` (lines 208-247). -/
def scan_fake_letters (text : List Char) : List ValidationIssue :=
  (text.enum.map (fun p => fakeIssuesAt text p.1 p.2)).flatten

/-- `_tone_positions_in_token` (lines 286-294). -/
def _tone_positions_in_token (token : List Char) : List Nat :=
  token.enum.filterMap (fun p =>
    if ((nfd p.2).drop 1).any (fun m => decide (m ∈ COMBINING_TONE_MARKS))
    then some p.1 else none)

/-- The issues `scan_tone_placement` (lines 251-282) contributes for one
token starting at text offset `off`: skip unless exactly one tone-bearing
letter; flag when the Resolver's expected index is defined and differs. -/
def tokenToneIssues (text token : List Char) (off : Nat) : List ValidationIssue :=
  match _tone_positions_in_token token with
  | [toneIdx] =>
    match _expected_tone_index token with
    | some expectedIdx =>
      if expectedIdx ≠ toneIdx then
        [{ issue_type := "TONE_PLACEMENT".toList
           message := "Tone mark appears on the wrong vowel in _".toList ++ token ++
             "_.".toList
           start := off + toneIdx, stop := off + toneIdx + 1
           snippet := local_snippet text (off + toneIdx) (off + toneIdx + 1)
           suggestion := some "Move the tone to the main vowel per Vietnamese orthography.".toList }]
      else []
    | none => []
  | _ => []

/-- `scan_tone_placement` (lines 251-282): iterate over the letter/hyphen
tokens of the text, tracking each token's start offset. -/
def scanToneGo (text : List Char) : Nat → List Char → Nat → List ValidationIssue
  | _, [], _ => []
  | 0, _ :: _, _ => []
  | fuel + 1, c :: cs, off =>
    if isTokenChar c then
      tokenToneIssues text ((c :: cs).takeWhile isTokenChar) off ++
        scanToneGo text fuel ((c :: cs).dropWhile isTokenChar)
          (off + ((c :: cs).takeWhile isTokenChar).length)
    else scanToneGo text fuel cs (off + 1)

def scan_tone_placement (text : List Char) : List ValidationIssue :=
  scanToneGo text text.length text 0

/-- `VietnameseTextValidator.validate` (lines 112-119): run the five scans
in order and concatenate their issues. -/
def validate (nfc_text : List Char) : ValidationReport :=
  { issues := scan_invisible_chars nfc_text ++ scan_non_latin_confusables nfc_text ++
      scan_combining_sequences nfc_text ++ scan_fake_letters nfc_text ++
      scan_tone_placement nfc_text }

/-- `validate_vietnamese_text` (lines 392-397). -/
def validate_vietnamese_text (nfc_text : List Char) : ValidationReport :=
  validate nfc_text

/-! ## Orchestrator (lines 606-635) -/

/-- The three structure-preserving fix passes 3a-3c of
`validate_and_fix_vietnamese_text` (lines 627-629). -/
def fix_prefix_passes (t : List Char) : List Char :=
  clamp_to_single_tone_per_letter (replace_safe_homoglyphs (strip_invisible_characters t))

/-- The full Fixer Pipeline, passes 3a-3d of
`validate_and_fix_vietnamese_text` (lines 626-630): strip invisibles,
replace safe homoglyphs, clamp to a single tone per letter, relocate
tones. -/
def fix_pipeline (t : List Char) : List Char :=
  fix_tone_placement_in_text (fix_prefix_passes t)

/-- `validate_and_fix_vietnamese_text` (lines 606-635): normalize, validate,
fix, re-validate. -/
def validate_and_fix_vietnamese_text (raw_text : List Char) :
    List Char × ValidationReport × ValidationReport :=
  let nfc_text := normalize_nfc raw_text
  let initial_report := validate_vietnamese_text nfc_text
  let fixed := nfc_text
  let fixed := strip_invisible_characters fixed
  let fixed := replace_safe_homoglyphs fixed
  let fixed := clamp_to_single_tone_per_letter fixed
  let fixed := fix_tone_placement_in_text fixed
  let final_report := validate_vietnamese_text fixed
  (fixed, initial_report, final_report)

/-! ## Supporting lemmas -/

theorem assoc_mem {α : Type} {l : List (Char × α)} {c : Char} {v : α}
    (h : assoc l c = some v) : (c, v) ∈ l := by
  induction l with
  | nil => simp [assoc] at h
  | cons p ps ih =>
    by_cases hc : p.1 = c
    · simp [assoc, hc] at h
      subst h
      simp [← hc]
    · simp [assoc, hc] at h
      exact List.mem_cons_of_mem _ (ih h)

theorem length_dropWhile_le {α : Type} (p : α → Bool) (l : List α) :
    (l.dropWhile p).length ≤ l.length := by
  induction l with
  | nil => simp [List.dropWhile]
  | cons c cs ih =>
    by_cases h : p c
    · simp only [List.dropWhile, h]
      exact Nat.le_succ_of_le ih
    · simp [List.dropWhile, h]

theorem getD_mem_or {α : Type} (l : List α) (n : Nat) (d : α) :
    l.getD n d ∈ l ∨ l.getD n d = d := by
  induction l generalizing n with
  | nil => right; simp
  | cons c cs ih =>
    match n with
    | 0 => left; simp
    | m + 1 =>
      rcases ih m with h | h
      · left; simp only [List.getD_cons_succ]; exact List.mem_cons_of_mem _ h
      · right; simpa using h

theorem mem_insMark {x c : Char} {l : List Char} (h : x ∈ insMark c l) :
    x = c ∨ x ∈ l := by
  induction l with
  | nil => simpa [insMark] using h
  | cons d ds ih =>
    by_cases hd : ccc d < ccc c
    · simp only [insMark, hd, if_true, List.mem_cons] at h
      rcases h with h | h
      · right; simp [h]
      · rcases ih h with h | h
        · left; exact h
        · right; exact List.mem_cons_of_mem _ h
    · simp only [insMark, hd, if_false, List.mem_cons] at h
      rcases h with h | h | h
      · left; exact h
      · right; simp [h]
      · right; exact List.mem_cons_of_mem _ h

theorem mem_sortMarks {x : Char} {l : List Char} (h : x ∈ sortMarks l) : x ∈ l := by
  induction l with
  | nil => simp [sortMarks] at h
  | cons c cs ih =>
    simp only [sortMarks] at h
    rcases mem_insMark h with h | h
    · simp [h]
    · exact List.mem_cons_of_mem _ (ih h)

theorem nfdPairs_len2 : ∀ p ∈ nfdPairs, 2 ≤ p.2.length := by decide

theorem nfcLookup_singleton (x : Char) : nfcLookup [x] = none := by
  unfold nfcLookup
  cases hf : nfdPairs.find? (fun p => p.2 == [x]) with
  | none => rfl
  | some p =>
    exfalso
    have h1 : p.2 = [x] := by simpa using List.find?_some hf
    have h2 : 2 ≤ p.2.length := nfdPairs_len2 p (List.mem_of_find?_eq_some hf)
    rw [h1] at h2
    simp only [List.length_cons, List.length_nil] at h2
    omega

theorem nfcCompose_chars {l : List Char} {c : Char} (h : c ∈ nfcCompose l) :
    c ∈ l ∨ ∃ p ∈ nfdPairs, p.1 = c := by
  match l with
  | [] => simp [nfcCompose] at h
  | b :: ms =>
    simp only [nfcCompose] at h
    cases hf : nfcLookup (b :: sortMarks ms) with
    | some d =>
      rw [hf] at h
      simp only [List.mem_singleton] at h
      subst h
      right
      unfold nfcLookup at hf
      cases hg : nfdPairs.find? (fun p => p.2 == b :: sortMarks ms) with
      | none => simp [hg] at hf
      | some p =>
        rw [hg] at hf
        refine ⟨p, List.mem_of_find?_eq_some hg, ?_⟩
        have h2 : some p.1 = some c := by simpa using hf
        exact Option.some.inj h2
    | none =>
      rw [hf] at h
      rcases List.mem_cons.mp h with h | h
      · left; simp [h]
      · left; exact List.mem_cons_of_mem _ (mem_sortMarks h)

theorem nfd_ne_nil (c : Char) : nfd c ≠ [] := by
  unfold nfd
  cases ha : assoc nfdPairs c with
  | none => simp
  | some l =>
    have h2 := nfdPairs_len2 (c, l) (assoc_mem ha)
    simp only [Option.getD_some]
    intro h
    rw [h] at h2
    simp only [List.length_nil] at h2
    omega

theorem nfd_chars {ch c : Char} (h : c ∈ nfd ch) :
    c = ch ∨ ∃ p ∈ nfdPairs, c ∈ p.2 := by
  unfold nfd at h
  cases ha : assoc nfdPairs ch with
  | none =>
    rw [ha] at h
    exact Or.inl (by simpa using h)
  | some l =>
    rw [ha] at h
    right
    exact ⟨(ch, l), assoc_mem ha, h⟩

theorem headD_mem {α : Type} {l : List α} (d : α) (h : l ≠ []) : l.headD d ∈ l := by
  cases l with
  | nil => exact absurd rfl h
  | cons a as => simp

theorem nfdPairs_keys_not_inv : ∀ p ∈ nfdPairs, p.1 ∉ INVISIBLE_CODEPOINTS := by decide

theorem nfdPairs_chars_not_inv :
    ∀ p ∈ nfdPairs, ∀ c ∈ p.2, c ∉ INVISIBLE_CODEPOINTS := by decide

theorem mem_clampMarks {x : Char} : ∀ {ms : List Char} {seen : Bool},
    x ∈ clampMarks ms seen → x ∈ ms := by
  intro ms
  induction ms with
  | nil =>
    intro seen h
    simp [clampMarks] at h
  | cons m ms ih =>
    intro seen h
    by_cases h1 : m ∈ COMBINING_TONE_MARKS
    · cases seen with
      | true =>
        simp only [clampMarks, h1, if_true] at h
        exact List.mem_cons_of_mem _ (ih h)
      | false =>
        simp only [clampMarks, h1, if_true] at h
        rcases List.mem_cons.mp h with rfl | h
        · exact List.mem_cons_self _ _
        · exact List.mem_cons_of_mem _ (ih h)
    · by_cases h2 : m ∈ COMBINING_MAJOR_VIET
      · simp only [clampMarks, h1, h2, if_true, if_false] at h
        rcases List.mem_cons.mp h with rfl | h
        · exact List.mem_cons_self _ _
        · exact List.mem_cons_of_mem _ (ih h)
      · simp only [clampMarks, h1, h2, if_false] at h
        exact List.mem_cons_of_mem _ (ih h)

/-- Outside the modelled decomposition table the clamp pass keeps the
character: atomic characters have no marks to filter. -/
theorem clampChar_atomic {ch : Char} (h : assoc nfdPairs ch = none) :
    clampChar ch = [ch] := by
  unfold clampChar
  by_cases halpha : isAlphaChar ch
  · have hnfd : nfd ch = [ch] := by unfold nfd; rw [h]; rfl
    simp only [halpha, not_true, if_false, nfdHead, nfdMarks, hnfd]
    simp [clampMarks, nfcCompose, sortMarks, nfcLookup_singleton]
  · simp [halpha]

/-- Every character the clamp pass emits for one input character is the
input character itself, a precomposed character of the table, or a
character occurring in a table decomposition. -/
theorem clampChar_chars {ch x : Char} (hx : x ∈ clampChar ch) :
    x = ch ∨ (∃ p ∈ nfdPairs, p.1 = x) ∨ (∃ p ∈ nfdPairs, x ∈ p.2) := by
  unfold clampChar at hx
  by_cases halpha : isAlphaChar ch
  · simp only [halpha, not_true, if_false] at hx
    rcases nfcCompose_chars hx with h | hkey
    · rcases List.mem_cons.mp h with h | h
      · have hmem : x ∈ nfd ch := by
          rw [h]
          exact headD_mem ch (nfd_ne_nil ch)
        rcases nfd_chars hmem with h2 | h2
        · exact Or.inl h2
        · exact Or.inr (Or.inr h2)
      · have hmem : x ∈ nfd ch := List.mem_of_mem_drop (mem_clampMarks h)
        rcases nfd_chars hmem with h2 | h2
        · exact Or.inl h2
        · exact Or.inr (Or.inr h2)
    · exact Or.inr (Or.inl hkey)
  · simp [halpha] at hx
    exact Or.inl hx

theorem mem_clamp {s : List Char} {c : Char} :
    c ∈ clamp_to_single_tone_per_letter s ↔ ∃ e ∈ s, c ∈ clampChar e := by
  unfold clamp_to_single_tone_per_letter
  constructor
  · intro h
    rcases List.mem_flatten.mp h with ⟨cell, hcell, hc⟩
    rcases List.mem_map.mp hcell with ⟨e, he, rfl⟩
    exact ⟨e, he, hc⟩
  · rintro ⟨e, he, hc⟩
    exact List.mem_flatten.mpr ⟨clampChar e, List.mem_map.mpr ⟨e, he, rfl⟩, hc⟩

theorem homo_values_not_keys :
    ∀ p ∈ HOMOGLYPH_SAFE_MAP, assoc HOMOGLYPH_SAFE_MAP p.2 = none := by decide

theorem homo_values_not_invisible :
    ∀ p ∈ HOMOGLYPH_SAFE_MAP, p.2 ∉ INVISIBLE_CODEPOINTS := by decide

theorem replace_idem (t : List Char) :
    replace_safe_homoglyphs (replace_safe_homoglyphs t) = replace_safe_homoglyphs t := by
  unfold replace_safe_homoglyphs
  rw [List.map_map]
  apply List.map_congr_left
  intro a _
  cases ha : assoc HOMOGLYPH_SAFE_MAP a with
  | none => simp [Function.comp, ha]
  | some v =>
    simp only [Function.comp, ha, Option.getD_some]
    rw [homo_values_not_keys (a, v) (assoc_mem ha)]
    rfl

theorem strip_chars {t : List Char} {c : Char} (h : c ∈ strip_invisible_characters t) :
    c ∉ INVISIBLE_CODEPOINTS := by
  have := List.of_mem_filter h
  simpa using this

theorem strip_subset {t : List Char} {c : Char} (h : c ∈ strip_invisible_characters t) :
    c ∈ t := List.mem_of_mem_filter h

theorem strip_of_clean {t : List Char} (h : ∀ c ∈ t, c ∉ INVISIBLE_CODEPOINTS) :
    strip_invisible_characters t = t := by
  unfold strip_invisible_characters
  exact List.filter_eq_self.mpr (fun a ha => by simpa using h a ha)

theorem replace_chars {t : List Char} {c : Char} (h : c ∈ replace_safe_homoglyphs t) :
    c ∈ t ∨ ∃ d ∈ t, assoc HOMOGLYPH_SAFE_MAP d = some c := by
  unfold replace_safe_homoglyphs at h
  rcases List.mem_map.mp h with ⟨d, hd, hcd⟩
  cases ha : assoc HOMOGLYPH_SAFE_MAP d with
  | none =>
    left
    rw [ha] at hcd
    simp only [Option.getD_none] at hcd
    rwa [← hcd]
  | some v =>
    right
    rw [ha] at hcd
    simp only [Option.getD_some] at hcd
    exact ⟨d, hd, by rw [ha, hcd]⟩

theorem replace_strip_clean (t : List Char) :
    ∀ c ∈ replace_safe_homoglyphs (strip_invisible_characters t),
      c ∉ INVISIBLE_CODEPOINTS := by
  intro c hc
  rcases replace_chars hc with h | ⟨d, _, hdv⟩
  · exact strip_chars h
  · exact homo_values_not_invisible (d, c) (assoc_mem hdv)

theorem fix_prefix_clean (t : List Char) :
    ∀ c ∈ fix_prefix_passes t, c ∉ INVISIBLE_CODEPOINTS := by
  intro c hc
  unfold fix_prefix_passes at hc
  rcases mem_clamp.mp hc with ⟨e, he, hce⟩
  rcases clampChar_chars hce with h | ⟨p, hp, hpc⟩ | ⟨p, hp, hpc⟩
  · rw [h]
    exact replace_strip_clean t e he
  · exact hpc ▸ nfdPairs_keys_not_inv p hp
  · exact nfdPairs_chars_not_inv p hp c hpc

/-! ## Claim theorems -/

/-- C9: for every well-formed input, the Orchestrator's
`validate_and_fix_vietnamese_text` terminates (it is a total function of
this development) and returns exactly the triple of the fixed text, the
report of the pre-fix NFC text, and the report of the post-fix text. -/
theorem C9_orchestrator_triple (raw : List Char) :
    validate_and_fix_vietnamese_text raw =
      (fix_pipeline (normalize_nfc raw),
       validate_vietnamese_text (normalize_nfc raw),
       validate_vietnamese_text (fix_pipeline (normalize_nfc raw))) := rfl

/-- C1 fails on the code: for the token "hoà" the heuristic's literal
substring search for "oa" does not match the toned "oà", so the expected
index is not the index of 'o' (it is `none`) and the Fixer does not
produce "hòa". -/
theorem C1_counterexample :
    expected_tone_index_heuristic ("hoà".toList) ≠ some 1 ∧
    fix_pipeline ("hoà".toList) ≠ "hòa".toList := by decide

/-- C1 (amended): on the token "hoà" the Tone-Placement Resolver returns
`none` (the oa/oe/uy cluster search is a literal substring match, which the
tone mark on 'a' defeats), so both the relocation pass and the full Fixer
pipeline leave "hoà" unchanged. -/
theorem C1_hoa_unchanged :
    expected_tone_index_heuristic ("hoà".toList) = none ∧
    move_tone_mark_within_token ("hoà".toList) = "hoà".toList ∧
    fix_pipeline ("hoà".toList) = "hoà".toList := by decide

/-- C8: ambiguous cases pass through unflagged and unfixed.  When the
Validator's resolver returns `none` its tone-placement scan emits no issue
for the token, and when the Fixer's resolver returns `none` the relocation
pass returns the token unchanged. -/
theorem C8_none_means_untouched :
    (∀ text token off, _expected_tone_index token = none →
      tokenToneIssues text token off = []) ∧
    (∀ token, expected_tone_index_heuristic token = none →
      move_tone_mark_within_token token = token) := by
  constructor
  · intro text token off h
    unfold tokenToneIssues
    split
    · rw [h]
    · rfl
  · intro token h
    unfold move_tone_mark_within_token
    split
    · rw [h]
    · rfl

theorem C8_witness :
    tokenToneIssues [] ("pt".toList) 0 = [] ∧
    move_tone_mark_within_token ("pt".toList) = "pt".toList :=
  ⟨C8_none_means_untouched.1 [] ("pt".toList) 0 (by decide),
   C8_none_means_untouched.2 ("pt".toList) (by decide)⟩

theorem c10_go (fuel : Nat) : ∀ s : List Char, s.length ≤ fuel →
    fixToneGo fuel s = ((segmentsGo fuel s).map
      (fun p => if p.1 then move_tone_mark_within_token p.2 else p.2)).flatten ∧
    ((segmentsGo fuel s).map (fun p => p.2)).flatten = s := by
  induction fuel with
  | zero =>
    intro s hs
    have hnil : s = [] := List.length_eq_zero.mp (Nat.le_zero.mp hs)
    subst hnil
    exact ⟨rfl, rfl⟩
  | succ fuel ih =>
    intro s hs
    match s with
    | [] => exact ⟨rfl, rfl⟩
    | c :: cs =>
      have hcs : cs.length ≤ fuel := Nat.succ_le_succ_iff.mp (by simpa using hs)
      by_cases hc : isTokenChar c
      · have hdrop : ((c :: cs).dropWhile isTokenChar).length ≤ fuel := by
          rw [List.dropWhile_cons]
          simp only [hc, if_true]
          exact le_trans (length_dropWhile_le _ _) hcs
        obtain ⟨ih1, ih2⟩ := ih _ hdrop
        constructor
        · simp only [fixToneGo, segmentsGo, hc, if_true, List.map_cons, List.flatten_cons]
          rw [ih1]
        · simp only [segmentsGo, hc, if_true, List.map_cons, List.flatten_cons]
          rw [ih2]
          exact List.takeWhile_append_dropWhile _ _
      · have hcf : isTokenChar c = false := by simpa using hc
        have hdrop : ((c :: cs).dropWhile (fun d => ! isTokenChar d)).length ≤ fuel := by
          rw [List.dropWhile_cons]
          simp only [hcf, Bool.not_false, if_true]
          exact le_trans (length_dropWhile_le _ _) hcs
        obtain ⟨ih1, ih2⟩ := ih _ hdrop
        constructor
        · simp only [fixToneGo, segmentsGo, hcf, Bool.false_eq_true, if_false,
            List.map_cons, List.flatten_cons]
          rw [ih1]
        · simp only [segmentsGo, hcf, Bool.false_eq_true, if_false, List.map_cons,
            List.flatten_cons]
          rw [ih2]
          exact List.takeWhile_append_dropWhile _ _

/-- C10: the tone-relocation pass is a frame transformation: its output is
the concatenation, in order, of the inter-token segments copied verbatim
and the per-token results of `move_tone_mark_within_token`; joining the
segments themselves recovers the input, so every character outside a
letter/hyphen token run is unchanged. -/
theorem C10_tone_pass_frame (s : List Char) :
    fix_tone_placement_in_text s = ((segments s).map
      (fun p => if p.1 then move_tone_mark_within_token p.2 else p.2)).flatten ∧
    ((segments s).map (fun p => p.2)).flatten = s :=
  c10_go s.length s le_rfl

/-! Character-origin lemmas for the relocation pass, used for the
invisible-character completeness claim. -/

/-- Any character of the relocation pass's per-token output comes from the
token itself, from the out-of-range placeholder, or from the modelled
decomposition tables. -/
theorem move_chars {token : List Char} {c : Char}
    (hc : c ∈ move_tone_mark_within_token token) :
    c ∈ token ∨ c = ' ' ∨ (∃ p ∈ nfdPairs, p.1 = c) ∨ (∃ p ∈ nfdPairs, c ∈ p.2) := by
  have origin_of_nfd : ∀ (d x : Char), x ∈ nfd d →
      d ∈ token ∨ d = ' ' → c = x →
      c ∈ token ∨ c = ' ' ∨ (∃ p ∈ nfdPairs, p.1 = c) ∨ (∃ p ∈ nfdPairs, c ∈ p.2) := by
    intro d x hx hd hcx
    subst hcx
    rcases nfd_chars hx with h | ⟨p, hp, hxp⟩
    · subst h
      rcases hd with hd | hd
      · exact Or.inl hd
      · exact Or.inr (Or.inl hd)
    · exact Or.inr (Or.inr (Or.inr ⟨p, hp, hxp⟩))
  unfold move_tone_mark_within_token at hc
  split at hc
  case h_2 => exact Or.inl hc
  case h_1 toneIdx heq =>
    split at hc
    case h_1 => exact Or.inl hc
    case h_2 expectedIdx hexp =>
      split at hc
      · exact Or.inl hc
      · simp only at hc
        rcases List.mem_flatten.mp hc with ⟨cell, hcell, hc2⟩
        have hT : ∀ i, token.getD i ' ' ∈ token ∨ token.getD i ' ' = ' ' :=
          fun i => getD_mem_or token i ' '
        rcases List.mem_or_eq_of_mem_set hcell with hcell | rfl
        · rcases List.mem_or_eq_of_mem_set hcell with hcell | rfl
          · rcases List.mem_map.mp hcell with ⟨d, hd, rfl⟩
            exact Or.inl (by
              rcases List.mem_singleton.mp hc2 with rfl
              exact hd)
          · -- the recomposed tone-stripped character
            rcases nfcCompose_chars hc2 with h | ⟨p, hp, hpc⟩
            · rcases List.mem_cons.mp h with h | h
              · exact origin_of_nfd (token.getD toneIdx ' ') c
                  (h ▸ headD_mem _ (nfd_ne_nil _)) (hT toneIdx) rfl
              · have h2 : c ∈ nfd (token.getD toneIdx ' ') :=
                  List.mem_of_mem_drop (List.mem_of_mem_filter h)
                exact origin_of_nfd (token.getD toneIdx ' ') c h2 (hT toneIdx) rfl
            · exact Or.inr (Or.inr (Or.inl ⟨p, hp, hpc⟩))
        · -- the recomposed tone-bearing character
          rcases nfcCompose_chars hc2 with h | ⟨p, hp, hpc⟩
          · rcases List.mem_cons.mp h with h | h
            · exact origin_of_nfd (token.getD expectedIdx ' ') c
                (h ▸ headD_mem _ (nfd_ne_nil _)) (hT expectedIdx) rfl
            · rcases hmE : ((nfd (token.getD toneIdx ' ')).drop 1).find?
                  (fun m => decide (m ∈ COMBINING_TONE_MARKS)) with _ | tn
              · rw [hmE] at h
                simp only at h
                have h2 : c ∈ nfd (token.getD expectedIdx ' ') := List.mem_of_mem_drop h
                exact origin_of_nfd (token.getD expectedIdx ' ') c h2 (hT expectedIdx) rfl
              · rw [hmE] at h
                simp only at h
                split at h
                · have h2 : c ∈ nfd (token.getD expectedIdx ' ') := List.mem_of_mem_drop h
                  exact origin_of_nfd (token.getD expectedIdx ' ') c h2 (hT expectedIdx) rfl
                · rcases List.mem_append.mp h with h | h
                  · have h2 : c ∈ nfd (token.getD expectedIdx ' ') := List.mem_of_mem_drop h
                    exact origin_of_nfd (token.getD expectedIdx ' ') c h2 (hT expectedIdx) rfl
                  · have h2 : tn ∈ nfd (token.getD toneIdx ' ') := by
                      have h3 := List.mem_of_find?_eq_some hmE
                      exact List.mem_of_mem_drop h3
                    rcases List.mem_singleton.mp h with rfl
                    exact origin_of_nfd (token.getD toneIdx ' ') c h2 (hT toneIdx) rfl
          · exact Or.inr (Or.inr (Or.inl ⟨p, hp, hpc⟩))

theorem move_safe {token : List Char} (htok : ∀ d ∈ token, d ∉ INVISIBLE_CODEPOINTS)
    {c : Char} (hc : c ∈ move_tone_mark_within_token token) :
    c ∉ INVISIBLE_CODEPOINTS := by
  rcases move_chars hc with h | h | ⟨p, hp, hpc⟩ | ⟨p, hp, hpc⟩
  · exact htok c h
  · subst h; decide
  · exact hpc ▸ nfdPairs_keys_not_inv p hp
  · exact nfdPairs_chars_not_inv p hp c hpc

theorem segmentsGo_chars (fuel : Nat) : ∀ s : List Char, s.length ≤ fuel →
    ∀ p ∈ segmentsGo fuel s, ∀ d ∈ p.2, d ∈ s := by
  induction fuel with
  | zero =>
    intro s hs p hp
    have hnil : s = [] := List.length_eq_zero.mp (Nat.le_zero.mp hs)
    subst hnil
    simp [segmentsGo] at hp
  | succ fuel ih =>
    intro s hs p hp d hd
    match s with
    | [] => simp [segmentsGo] at hp
    | c :: cs =>
      have hcs : cs.length ≤ fuel := Nat.succ_le_succ_iff.mp (by simpa using hs)
      by_cases hc : isTokenChar c
      · simp only [segmentsGo, hc, if_true] at hp
        rcases List.mem_cons.mp hp with rfl | hp
        · exact (List.takeWhile_sublist _).mem hd
        · have hdrop : ((c :: cs).dropWhile isTokenChar).length ≤ fuel := by
            rw [List.dropWhile_cons]
            simp only [hc, if_true]
            exact le_trans (length_dropWhile_le _ _) hcs
          exact (List.dropWhile_sublist _).mem (ih _ hdrop p hp d hd)
      · have hcf : isTokenChar c = false := by simpa using hc
        simp only [segmentsGo, hcf, Bool.false_eq_true, if_false] at hp
        rcases List.mem_cons.mp hp with rfl | hp
        · exact (List.takeWhile_sublist _).mem hd
        · have hdrop : ((c :: cs).dropWhile (fun d => ! isTokenChar d)).length ≤ fuel := by
            rw [List.dropWhile_cons]
            simp only [hcf, Bool.not_false, if_true]
            exact le_trans (length_dropWhile_le _ _) hcs
          exact (List.dropWhile_sublist _).mem (ih _ hdrop p hp d hd)

/-- The relocation pass preserves any per-character property that
`move_tone_mark_within_token` preserves token-wise: characters of the
output come from a token transformed by the move, or from an inter-token
segment copied verbatim. -/
theorem fix_tone_pres (P : Char → Prop)
    (hmove : ∀ token : List Char, (∀ d ∈ token, P d) →
      ∀ x ∈ move_tone_mark_within_token token, P x)
    {s : List Char} (hs : ∀ d ∈ s, P d) {c : Char}
    (hc : c ∈ fix_tone_placement_in_text s) : P c := by
  have heq := (c10_go s.length s le_rfl).1
  unfold fix_tone_placement_in_text at hc
  rw [heq] at hc
  rcases List.mem_flatten.mp hc with ⟨cell, hcell, hc2⟩
  rcases List.mem_map.mp hcell with ⟨p, hp, rfl⟩
  have hchars : ∀ d ∈ p.2, d ∈ s := segmentsGo_chars s.length s le_rfl p hp
  by_cases hb : p.1
  · simp only [hb, if_true] at hc2
    exact hmove p.2 (fun d hd => hs d (hchars d hd)) c hc2
  · simp only [hb, if_false] at hc2
    exact hs c (hchars c hc2)

theorem fix_tone_safe {s : List Char} (hs : ∀ d ∈ s, d ∉ INVISIBLE_CODEPOINTS)
    {c : Char} (hc : c ∈ fix_tone_placement_in_text s) :
    c ∉ INVISIBLE_CODEPOINTS :=
  fix_tone_pres (fun x => x ∉ INVISIBLE_CODEPOINTS)
    (fun _ htok _ hx => move_safe htok hx) hs hc

/-- C6: invisible-stripping completeness.  No character of the invisible
set survives the full Fixer pipeline, `fix("a\u200Bb")` is `"ab"`, and the
initial validation report for that input contains exactly one
invisible-character issue, at span [1,2). -/
theorem C6_invisible_completeness :
    (∀ t c, c ∈ fix_pipeline t → c ∉ INVISIBLE_CODEPOINTS) ∧
    fix_pipeline ("a\u200Bb".toList) = "ab".toList ∧
    ((validate_vietnamese_text (normalize_nfc "a\u200Bb".toList)).issues.filter
        (fun i => i.issue_type = "INVISIBLE_CHAR".toList)).map
      (fun i => (i.start, i.stop)) = [(1, 2)] := by
  refine ⟨fun t c hc => ?_, by decide, by decide⟩
  exact fix_tone_safe (fix_prefix_clean t) hc

theorem C6_witness :
    'a' ∈ fix_pipeline ("ab".toList) ∧ 'a' ∉ INVISIBLE_CODEPOINTS :=
  ⟨by decide, C6_invisible_completeness.1 ("ab".toList) 'a' (by decide)⟩

/-! ## Coda-detection lemmas -/

theorem ends_pair_imp {a b : Char} {low : List Char}
    (h : endsWithSeq low [a, b] = true) : low.getLast? = some b := by
  unfold endsWithSeq at h
  obtain ⟨t, ht⟩ := List.isSuffixOf_iff_suffix.mp h
  rw [← ht, show t ++ [a, b] = (t ++ [a]) ++ [b] by simp, List.getLast?_concat]

theorem ends_single_iff {c : Char} {low : List Char} :
    endsWithSeq low [c] = true ↔ low.getLast? = some c := by
  constructor
  · intro h
    obtain ⟨t, ht⟩ := List.isSuffixOf_iff_suffix.mp h
    rw [← ht, List.getLast?_concat]
  · intro h
    have hne : low ≠ [] := by
      intro hn
      rw [hn] at h
      simp at h
    have hd := List.dropLast_append_getLast hne
    have hc : low.getLast hne = c := by
      have h2 := List.getLast?_eq_getLast low hne
      rw [h] at h2
      exact (Option.some.inj h2).symm
    unfold endsWithSeq
    rw [List.isSuffixOf_iff_suffix]
    exact ⟨low.dropLast, by rw [hc] at hd; exact hd⟩

theorem heuristicCodaCheck_nf (low : List Char) :
    heuristicCodaCheck low =
      (match low.getLast? with
       | some y => decide (y ∈ codaConsonantClass)
       | none => false) := by
  unfold heuristicCodaCheck
  cases hl : low.getLast? with
  | none =>
    have hnil : low = [] := List.getLast?_eq_none_iff.mp hl
    subst hnil
    decide
  | some y =>
    by_cases hy : y ∈ codaConsonantClass
    · simp [hy]
    · have h1 : endsWithSeq low ['n', 'g'] = false := by
        cases hE : endsWithSeq low ['n', 'g'] with
        | false => rfl
        | true =>
          exfalso
          have h2 := ends_pair_imp hE
          rw [hl] at h2
          exact hy ((Option.some.inj h2) ▸ (by decide : ('g' : Char) ∈ codaConsonantClass))
      have h2 : endsWithSeq low ['n', 'h'] = false := by
        cases hE : endsWithSeq low ['n', 'h'] with
        | false => rfl
        | true =>
          exfalso
          have h3 := ends_pair_imp hE
          rw [hl] at h3
          exact hy ((Option.some.inj h3) ▸ (by decide : ('h' : Char) ∈ codaConsonantClass))
      have h3 : endsWithSeq low ['c', 'h'] = false := by
        cases hE : endsWithSeq low ['c', 'h'] with
        | false => rfl
        | true =>
          exfalso
          have h4 := ends_pair_imp hE
          rw [hl] at h4
          exact hy ((Option.some.inj h4) ▸ (by decide : ('h' : Char) ∈ codaConsonantClass))
      simp [h1, h2, h3, hy]

theorem validatorCodaCheck_nf (low : List Char) :
    validatorCodaCheck low =
      (match low.getLast? with
       | some y => decide (y ∈ codaConsonantClass ++ ['ỳ', 'ỵ', 'ỷ', 'ỹ', 'ý'])
       | none => false) := by
  unfold validatorCodaCheck
  cases hl : low.getLast? with
  | none =>
    have hnil : low = [] := List.getLast?_eq_none_iff.mp hl
    subst hnil
    decide
  | some y =>
    by_cases hy : y ∈ codaConsonantClass ++ ['ỳ', 'ỵ', 'ỷ', 'ỹ', 'ý']
    · simp [hy]
    · have h1 : endsWithSeq low ['n', 'g'] = false := by
        cases hE : endsWithSeq low ['n', 'g'] with
        | false => rfl
        | true =>
          exfalso
          have h2 := ends_pair_imp hE
          rw [hl] at h2
          exact hy ((Option.some.inj h2) ▸
            (by decide : ('g' : Char) ∈ codaConsonantClass ++ ['ỳ', 'ỵ', 'ỷ', 'ỹ', 'ý']))
      have h2 : endsWithSeq low ['n', 'h'] = false := by
        cases hE : endsWithSeq low ['n', 'h'] with
        | false => rfl
        | true =>
          exfalso
          have h3 := ends_pair_imp hE
          rw [hl] at h3
          exact hy ((Option.some.inj h3) ▸
            (by decide : ('h' : Char) ∈ codaConsonantClass ++ ['ỳ', 'ỵ', 'ỷ', 'ỹ', 'ý']))
      have h3 : endsWithSeq low ['c', 'h'] = false := by
        cases hE : endsWithSeq low ['c', 'h'] with
        | false => rfl
        | true =>
          exfalso
          have h4 := ends_pair_imp hE
          rw [hl] at h4
          exact hy ((Option.some.inj h4) ▸
            (by decide : ('h' : Char) ∈ codaConsonantClass ++ ['ỳ', 'ỵ', 'ỷ', 'ỹ', 'ý']))
      simp [h1, h2, h3, hy]

theorem coda_spec_nf (low : List Char) :
    coda_spec low =
      (match low.getLast? with
       | some y => decide (y ∈ codaConsonantClass)
       | none => false) := by
  unfold coda_spec
  cases hl : low.getLast? with
  | none =>
    have hnil : low = [] := List.getLast?_eq_none_iff.mp hl
    subst hnil
    decide
  | some y =>
    by_cases hy : y ∈ codaConsonantClass
    · have h0 : codaConsonantClass.any (fun c => endsWithSeq low [c]) = true :=
        List.any_eq_true.mpr ⟨y, hy, ends_single_iff.mpr hl⟩
      simp [h0, hy]
    · have h0 : codaConsonantClass.any (fun c => endsWithSeq low [c]) = false := by
        cases hE : codaConsonantClass.any (fun c => endsWithSeq low [c]) with
        | false => rfl
        | true =>
          exfalso
          rcases List.any_eq_true.mp hE with ⟨c, hcmem, hce⟩
          have h4 := ends_single_iff.mp hce
          rw [hl] at h4
          exact hy ((Option.some.inj h4) ▸ hcmem)
      have h1 : endsWithSeq low ['n', 'g'] = false := by
        cases hE : endsWithSeq low ['n', 'g'] with
        | false => rfl
        | true =>
          exfalso
          have h4 := ends_pair_imp hE
          rw [hl] at h4
          exact hy ((Option.some.inj h4) ▸ (by decide : ('g' : Char) ∈ codaConsonantClass))
      have h2 : endsWithSeq low ['n', 'h'] = false := by
        cases hE : endsWithSeq low ['n', 'h'] with
        | false => rfl
        | true =>
          exfalso
          have h4 := ends_pair_imp hE
          rw [hl] at h4
          exact hy ((Option.some.inj h4) ▸ (by decide : ('h' : Char) ∈ codaConsonantClass))
      have h3 : endsWithSeq low ['c', 'h'] = false := by
        cases hE : endsWithSeq low ['c', 'h'] with
        | false => rfl
        | true =>
          exfalso
          have h4 := ends_pair_imp hE
          rw [hl] at h4
          exact hy ((Option.some.inj h4) ▸ (by decide : ('h' : Char) ∈ codaConsonantClass))
      simp [h0, h1, h2, h3, hy]

/-- C2 fails on the code: the Validator's resolver treats the token "lươý"
as having a coda (its regex class also contains ỳ ỵ ỷ ỹ ý) although it does
not end in one of the listed final consonants, and accordingly resolves the
expected index through the coda rule. -/
theorem C2_counterexample :
    validatorCodaCheck (strLower "lươý".toList) = true ∧
    coda_spec (strLower "lươý".toList) = false ∧
    _expected_tone_index ("lươý".toList) = some 2 := by decide

/-- C2 (amended): the Fixer heuristic's coda detection matches the
specified suffix set exactly; the Validator's detection additionally
counts the endings ỳ ỵ ỷ ỹ ý as codas.  In either resolver, when a coda is
detected and none of the earlier rules decided, the expected position is
the first character carrying ê, then ô, then ơ, in that preference
order (the coda-rule chain). -/
theorem C2_coda_detection :
    (∀ low, heuristicCodaCheck low = coda_spec low) ∧
    (∀ low, validatorCodaCheck low =
      (coda_spec low ||
        (match low.getLast? with
         | some y => decide (y ∈ (['ỳ', 'ỵ', 'ỷ', 'ỹ', 'ý'] : List Char))
         | none => false))) ∧
    (∀ token i, 2 ≤ (h_vowels token).length → (h_preferred token).length ≠ 1 →
      h_uye_rule token = none → h_coda_rule token = some i →
      expected_tone_index_heuristic token = some i) ∧
    (∀ token i, 2 ≤ (v_vowel_indices token).length → (v_preferred token).length ≠ 1 →
      v_uye_rule token = none → v_coda_rule token = some i →
      _expected_tone_index token = some i) := by
  refine ⟨fun low => by rw [heuristicCodaCheck_nf, coda_spec_nf], fun low => ?_, ?_, ?_⟩
  · rw [validatorCodaCheck_nf, coda_spec_nf]
    cases hl : low.getLast? with
    | none => rfl
    | some y =>
      by_cases h17 : y ∈ codaConsonantClass <;>
        by_cases h5 : y ∈ (['ỳ', 'ỵ', 'ỷ', 'ỹ', 'ý'] : List Char) <;>
          simp [List.mem_append, h17, h5]
  · intro token i hlen hpref huye hcoda
    have h1 : ¬ (h_vowels token = []) := by
      intro hnil
      rw [hnil] at hlen
      simp at hlen
    have h2 : ¬ ((h_vowels token).length = 1) := by omega
    unfold expected_tone_index_heuristic
    rw [if_neg h1, if_neg h2, if_neg hpref, huye, hcoda]
  · intro token i hlen hpref huye hcoda
    have h1 : ¬ (v_vowel_indices token = []) := by
      intro hnil
      rw [hnil] at hlen
      simp at hlen
    have h2 : ¬ ((v_vowel_indices token).length = 1) := by omega
    unfold _expected_tone_index
    rw [if_neg h1, if_neg h2, if_neg hpref, huye, hcoda]

theorem C2_witness : expected_tone_index_heuristic ("ưiêt".toList) = some 2 :=
  C2_coda_detection.2.2.1 ("ưiêt".toList) 2 (by decide) (by decide) (by decide) (by decide)

/-! ## Equivalence of the two resolvers (C3) -/

theorem lp_e : ∀ p ∈ lowerPairs, p.2 = 'e' → p.1 = 'e' ∨ p.1 = 'E' := by decide

theorem lp_o : ∀ p ∈ lowerPairs, p.2 = 'o' → p.1 = 'o' ∨ p.1 = 'O' := by decide

theorem lp_a : ∀ p ∈ lowerPairs, p.2 = 'a' → p.1 = 'a' ∨ p.1 = 'A' := by decide

theorem lp_vowel : ∀ p ∈ lowerPairs,
    p.2 ∈ (['a', 'e', 'i', 'o', 'u', 'y'] : List Char) → p.1 ∈ VOWELS_BASE := by decide

theorem vb_lower : ∀ c ∈ VOWELS_BASE,
    toLowerChar c ∈ (['a', 'e', 'i', 'o', 'u', 'y'] : List Char) := by decide

theorem aeiouy_sub : ∀ c ∈ (['a', 'e', 'i', 'o', 'u', 'y'] : List Char),
    c ∈ VOWELS_BASE := by decide

theorem precomp_base : ∀ c ∈ VIET_VOWEL_PRECOMPOSED,
    (nfd c).headD c ∈ VOWELS_BASE := by decide

theorem mem_eE_iff (b : Char) :
    (b ∈ (['e', 'E'] : List Char)) ↔ toLowerChar b = 'e' := by
  constructor
  · intro h
    rcases List.mem_cons.mp h with rfl | h
    · decide
    · rcases List.mem_singleton.mp h with rfl
      decide
  · intro h
    unfold toLowerChar at h
    cases ha : assoc lowerPairs b with
    | none =>
      rw [ha] at h
      simp only [Option.getD_none] at h
      simp [h]
    | some v =>
      rw [ha] at h
      simp only [Option.getD_some] at h
      rcases lp_e (b, v) (assoc_mem ha) h with h2 | h2
      · simp [show b = 'e' from h2]
      · simp [show b = 'E' from h2]

theorem mem_oO_iff (b : Char) :
    (b ∈ (['o', 'O'] : List Char)) ↔ toLowerChar b = 'o' := by
  constructor
  · intro h
    rcases List.mem_cons.mp h with rfl | h
    · decide
    · rcases List.mem_singleton.mp h with rfl
      decide
  · intro h
    unfold toLowerChar at h
    cases ha : assoc lowerPairs b with
    | none =>
      rw [ha] at h
      simp only [Option.getD_none] at h
      simp [h]
    | some v =>
      rw [ha] at h
      simp only [Option.getD_some] at h
      rcases lp_o (b, v) (assoc_mem ha) h with h2 | h2
      · simp [show b = 'o' from h2]
      · simp [show b = 'O' from h2]

theorem lower_a_imp {b : Char} (h : toLowerChar b = 'a') : b = 'a' ∨ b = 'A' := by
  unfold toLowerChar at h
  cases ha : assoc lowerPairs b with
  | none =>
    rw [ha] at h
    simp only [Option.getD_none] at h
    exact Or.inl h
  | some v =>
    rw [ha] at h
    simp only [Option.getD_some] at h
    exact lp_a (b, v) (assoc_mem ha) h

theorem vowels_lower_iff (b : Char) :
    (b ∈ VOWELS_BASE) ↔ toLowerChar b ∈ (['a', 'e', 'i', 'o', 'u', 'y'] : List Char) := by
  constructor
  · exact vb_lower b
  · intro h
    unfold toLowerChar at h
    cases ha : assoc lowerPairs b with
    | none =>
      rw [ha] at h
      simp only [Option.getD_none] at h
      exact aeiouy_sub b h
    | some v =>
      rw [ha] at h
      simp only [Option.getD_some] at h
      exact lp_vowel (b, v) (assoc_mem ha) h

theorem is_vowel_eq (ch : Char) :
    _is_vowel_letter ch = decide ((nfd ch).headD ch ∈ VOWELS_BASE) := by
  unfold _is_vowel_letter nfdHead
  by_cases hA : (nfd ch).headD ch ∈ VOWELS_BASE
  · rw [decide_eq_true hA, Bool.true_or]
  · have hB : ch ∉ VIET_VOWEL_PRECOMPOSED := fun hb => hA (precomp_base ch hb)
    rw [decide_eq_false hA, decide_eq_false hB, Bool.false_or]

theorem is_vowel_iff_lower (ch : Char) :
    (_is_vowel_letter ch = true) ↔
      toLowerChar ((nfd ch).headD ch) ∈ (['a', 'e', 'i', 'o', 'u', 'y'] : List Char) := by
  rw [is_vowel_eq]
  simp only [decide_eq_true_eq]
  exact vowels_lower_iff _

theorem vowel_indices_eq (token : List Char) :
    v_vowel_indices token = h_vowels token := by
  simp only [v_vowel_indices, h_vowels, is_vowel_eq]

theorem preferred_eq (token : List Char) :
    v_preferred token = h_preferred token := by
  simp only [v_preferred, h_preferred, _nfd_marks, vowel_indices_eq,
    show prefers = prefer_marks from rfl]

theorem uye_eq (token : List Char) : v_uye_rule token = h_uye_rule token := by
  unfold v_uye_rule h_uye_rule _find_char_with_base_and_mark
  simp only [mem_eE_iff]

theorem find_eE_eq (token : List Char) (m : Char) :
    _find_char_with_base_and_mark token ['e', 'E'] m = h_find_base_mark token 'e' m := by
  unfold _find_char_with_base_and_mark h_find_base_mark
  simp only [mem_eE_iff]

theorem find_oO_eq (token : List Char) (m : Char) :
    _find_char_with_base_and_mark token ['o', 'O'] m = h_find_base_mark token 'o' m := by
  unfold _find_char_with_base_and_mark h_find_base_mark
  simp only [mem_oO_iff]

theorem coda_rule_eq (token : List Char)
    (hcoda : validatorCodaCheck (strLower token) = heuristicCodaCheck (strLower token)) :
    v_coda_rule token = h_coda_rule token := by
  unfold v_coda_rule h_coda_rule
  rw [hcoda, find_eE_eq, find_oO_eq, find_oO_eq]

theorem findIdx?_cons_pos {p : Char → Bool} {a : Char} {as : List Char}
    (h : p a = true) : List.findIdx? p (a :: as) = some 0 := by
  simp [List.findIdx?_cons, h]

theorem ia_rule_eq (token : List Char)
    (hcoda : validatorCodaCheck (strLower token) = heuristicCodaCheck (strLower token)) :
    v_ia_rule token = h_ia_rule token := by
  unfold v_ia_rule h_ia_rule
  rw [hcoda]
  split
  case isTrue hgd =>
    obtain ⟨hnc, hends⟩ := hgd
    have hlast : (strLower token).getLast? = some 'a' := by
      simp only [Bool.or_eq_true] at hends
      rcases hends with (h | h) | h
      · exact ends_pair_imp h
      · exact ends_pair_imp h
      · exact ends_pair_imp h
    have hmap : (strLower token).getLast? = (token.getLast?).map toLowerChar :=
      List.getLast?_map _ _
    rw [hmap] at hlast
    cases hTl : token.getLast? with
    | none =>
      rw [hTl] at hlast
      simp at hlast
    | some lc =>
      rw [hTl] at hlast
      have hlow : toLowerChar lc = 'a' := by simpa using hlast
      have hlc := lower_a_imp hlow
      have hrev : token.reverse.head? = some lc := by
        rw [List.head?_reverse]
        exact hTl
      cases hr : token.reverse with
      | nil =>
        rw [hr] at hrev
        simp at hrev
      | cons y ys =>
        rw [hr] at hrev
        have hy : y = lc := by simpa using hrev
        subst hy
        have hp1 : (fun ch => decide (toLowerChar ch = 'a')) y = true := by
          simp [hlow]
        have hp2 : (fun ch => decide (toLowerChar ((nfd ch).headD ch) = 'a')) y = true := by
          rcases hlc with rfl | rfl <;> decide
        unfold lastIndexWhere
        rw [hr, findIdx?_cons_pos hp1, findIdx?_cons_pos hp2]
  case isFalse hgd => rfl

theorem oa_rule_eq (token : List Char) : v_oa_rule token = h_oa_rule token := by
  unfold v_oa_rule h_oa_rule
  simp only [is_vowel_iff_lower]

/-- C3 fails on the code: on the token "tươý" the Validator's resolver
detects a coda (final ý) and answers index 2 through the coda rule, while
the Fixer's heuristic detects no coda and answers `none`. -/
theorem C3_counterexample :
    _expected_tone_index ("tươý".toList) = some 2 ∧
    expected_tone_index_heuristic ("tươý".toList) = none := by decide

/-- C3 (amended): the Validator's `_expected_tone_index` and the Fixer's
`expected_tone_index_heuristic` return the same result on every
letter/hyphen token whose case-folded form does not end in one of
ỳ ỵ ỷ ỹ ý; on those endings the two coda regexes (and hence the resolvers)
can disagree. -/
theorem C3_resolvers_agree (token : List Char)
    (h : (match (strLower token).getLast? with
          | some y => decide (y ∈ (['ỳ', 'ỵ', 'ỷ', 'ỹ', 'ý'] : List Char))
          | none => false) = false) :
    _expected_tone_index token = expected_tone_index_heuristic token := by
  have hcoda : validatorCodaCheck (strLower token) = heuristicCodaCheck (strLower token) := by
    rw [validatorCodaCheck_nf, heuristicCodaCheck_nf]
    cases hl : (strLower token).getLast? with
    | none => rfl
    | some y =>
      rw [hl] at h
      have hy : y ∉ (['ỳ', 'ỵ', 'ỷ', 'ỹ', 'ý'] : List Char) := by simpa using h
      by_cases h17 : y ∈ codaConsonantClass <;> simp [List.mem_append, h17, hy]
  unfold _expected_tone_index expected_tone_index_heuristic
  rw [vowel_indices_eq, preferred_eq, uye_eq, coda_rule_eq token hcoda,
    ia_rule_eq token hcoda, oa_rule_eq]

theorem C3_witness :
    _expected_tone_index ("toán".toList) = expected_tone_index_heuristic ("toán".toList) :=
  C3_resolvers_agree ("toán".toList) (by decide)

/-! ### The single-tone invariant and pass idempotence (claims C4, C5, C7) -/

theorem countP_insMark (p : Char → Bool) (c : Char) (l : List Char) :
    (insMark c l).countP p = l.countP p + (if p c then 1 else 0) := by
  induction l with
  | nil => simp [insMark, List.countP_cons, List.countP_nil]
  | cons d ds ih =>
    by_cases h : ccc d < ccc c
    · simp only [insMark, h, if_true, List.countP_cons, ih]
      omega
    · simp only [insMark, h, if_false, List.countP_cons]

theorem countP_sortMarks (p : Char → Bool) (l : List Char) :
    (sortMarks l).countP p = l.countP p := by
  induction l with
  | nil => rfl
  | cons c cs ih => simp [sortMarks, countP_insMark, List.countP_cons, ih]

/-- Once a tone mark has been seen, the clamp mark filter drops every
further tone mark. -/
theorem clampMarks_true_tone (ms : List Char) :
    (clampMarks ms true).countP (fun m => decide (m ∈ COMBINING_TONE_MARKS)) = 0 := by
  induction ms with
  | nil => rfl
  | cons m ms ih =>
    by_cases h1 : m ∈ COMBINING_TONE_MARKS
    · simp only [clampMarks, h1, if_true]
      exact ih
    · by_cases h2 : m ∈ COMBINING_MAJOR_VIET
      · simp only [clampMarks, h1, h2, if_true, if_false, List.countP_cons]
        simp [h1, ih]
      · simp only [clampMarks, h1, h2, if_false]
        exact ih

/-- The clamp mark filter keeps at most one tone mark. -/
theorem clampMarks_false_tone (ms : List Char) :
    (clampMarks ms false).countP (fun m => decide (m ∈ COMBINING_TONE_MARKS)) ≤ 1 := by
  induction ms with
  | nil => simp [clampMarks]
  | cons m ms ih =>
    by_cases h1 : m ∈ COMBINING_TONE_MARKS
    · simp only [clampMarks, h1, if_true, if_false, List.countP_cons]
      simp [h1, clampMarks_true_tone]
    · by_cases h2 : m ∈ COMBINING_MAJOR_VIET
      · simp only [clampMarks, h1, h2, if_true, if_false, List.countP_cons]
        simpa [h1] using ih
      · simp only [clampMarks, h1, h2, if_false]
        exact ih

theorem nfcLookup_spec {l : List Char} {c : Char} (h : nfcLookup l = some c) :
    ∃ p ∈ nfdPairs, p.1 = c ∧ p.2 = l := by
  unfold nfcLookup at h
  cases hf : nfdPairs.find? (fun p => p.2 == l) with
  | none => rw [hf] at h; simp at h
  | some p =>
    rw [hf] at h
    refine ⟨p, List.mem_of_find?_eq_some hf, ?_, by simpa using List.find?_some hf⟩
    have h2 : some p.1 = some c := by simpa using h
    exact Option.some.inj h2

theorem nfdKeys_nodup : (nfdPairs.map (fun p => p.1)).Nodup := by decide

theorem assoc_of_mem_nodup {α : Type} {l : List (Char × α)}
    (hnd : (l.map (fun p => p.1)).Nodup) {c : Char} {v : α}
    (hm : (c, v) ∈ l) : assoc l c = some v := by
  induction l with
  | nil => simp at hm
  | cons p ps ih =>
    rw [List.map_cons, List.nodup_cons] at hnd
    rcases List.mem_cons.mp hm with heq | hm2
    · rw [← heq]
      simp [assoc]
    · have hne : ¬ (p.1 = c) := by
        intro hpc
        apply hnd.1
        rw [hpc]
        exact List.mem_map.mpr ⟨(c, v), hm2, rfl⟩
      simp only [assoc, hne, if_false]
      exact ih hnd.2 hm2

/-- A character outside the decomposition table is atomic, hence trivially
satisfies the single-tone invariant. -/
theorem atomic_single_tone {c : Char} (h : assoc nfdPairs c = none) :
    single_tone_ok c := by
  show ((nfd c).drop 1).countP (fun m => decide (m ∈ COMBINING_TONE_MARKS)) ≤ 1
  unfold nfd
  rw [h]
  simp

theorem bases_not_keys :
    ∀ p ∈ nfdPairs, assoc nfdPairs (p.2.headD ' ') = none := by decide

theorem marks_not_keys :
    ∀ p ∈ nfdPairs, ∀ m ∈ p.2.drop 1, assoc nfdPairs m = none := by decide

theorem keys_alpha : ∀ p ∈ nfdPairs, isAlphaChar p.1 = true := by decide

/-- Combining marks of any decomposition are atomic characters. -/
theorem nfd_marks_single_tone {d m : Char} (hm : m ∈ (nfd d).drop 1) :
    single_tone_ok m := by
  cases ha : assoc nfdPairs d with
  | none =>
    unfold nfd at hm
    rw [ha] at hm
    simp at hm
  | some l =>
    have hm2 : m ∈ l.drop 1 := by
      unfold nfd at hm
      rw [ha] at hm
      exact hm
    exact atomic_single_tone (marks_not_keys (d, l) (assoc_mem ha) m hm2)

/-- Base letters of any decomposition are atomic characters. -/
theorem nfd_base_single_tone {d : Char} : single_tone_ok ((nfd d).headD d) := by
  cases ha : assoc nfdPairs d with
  | none =>
    have hl : nfd d = [d] := by unfold nfd; rw [ha]; rfl
    rw [hl]
    exact atomic_single_tone ha
  | some l =>
    have hb := bases_not_keys (d, l) (assoc_mem ha)
    have hne : l ≠ [] := by
      intro h0
      have h2 := nfdPairs_len2 (d, l) (assoc_mem ha)
      rw [h0] at h2
      simp at h2
    have hdd : l.headD d = l.headD ' ' := by
      cases l with
      | nil => exact absurd rfl hne
      | cons a as => rfl
    have hl : nfd d = l := by unfold nfd; rw [ha]; rfl
    rw [hl, hdd]
    exact atomic_single_tone hb

/-- Recomposition preserves the single-tone invariant: if the base and all
marks are single-tone characters and the mark list carries at most one tone
mark, every character of the composed result is single-tone. -/
theorem nfcCompose_single_tone {b : Char} {ms : List Char}
    (hb : single_tone_ok b) (hms : ∀ m ∈ ms, single_tone_ok m)
    (hcount : ms.countP (fun m => decide (m ∈ COMBINING_TONE_MARKS)) ≤ 1)
    {x : Char} (hx : x ∈ nfcCompose (b :: ms)) : single_tone_ok x := by
  simp only [nfcCompose] at hx
  cases hf : nfcLookup (b :: sortMarks ms) with
  | none =>
    rw [hf] at hx
    rcases List.mem_cons.mp hx with rfl | hx2
    · exact hb
    · exact hms x (mem_sortMarks hx2)
  | some c =>
    rw [hf] at hx
    rcases List.mem_singleton.mp hx with rfl
    obtain ⟨p, hp, hpc, hpv⟩ := nfcLookup_spec hf
    have hpx : p = (x, p.2) := by
      rw [← hpc]
    have hassoc : assoc nfdPairs x = some p.2 := by
      apply assoc_of_mem_nodup nfdKeys_nodup
      rw [← hpx]
      exact hp
    show ((nfd x).drop 1).countP (fun m => decide (m ∈ COMBINING_TONE_MARKS)) ≤ 1
    unfold nfd
    rw [hassoc]
    simp only [Option.getD_some]
    rw [hpv]
    show (sortMarks ms).countP (fun m => decide (m ∈ COMBINING_TONE_MARKS)) ≤ 1
    rw [countP_sortMarks]
    exact hcount

/-- The clamp pass establishes the single-tone invariant character-wise. -/
theorem clampChar_single_tone {ch x : Char} (hx : x ∈ clampChar ch) :
    single_tone_ok x := by
  unfold clampChar at hx
  by_cases halpha : isAlphaChar ch
  · simp only [halpha, not_true, if_false] at hx
    refine nfcCompose_single_tone ?_ ?_ ?_ hx
    · exact nfd_base_single_tone
    · intro m hm
      exact nfd_marks_single_tone (mem_clampMarks hm)
    · exact clampMarks_false_tone _
  · simp [halpha] at hx
    rw [hx]
    have hnone : assoc nfdPairs ch = none := by
      cases ha : assoc nfdPairs ch with
      | none => rfl
      | some l => exact absurd (keys_alpha (ch, l) (assoc_mem ha)) halpha
    exact atomic_single_tone hnone

theorem fix_prefix_single_tone (t : List Char) :
    ∀ c ∈ fix_prefix_passes t, single_tone_ok c := by
  intro c hc
  unfold fix_prefix_passes at hc
  rcases mem_clamp.mp hc with ⟨e, _, hce⟩
  exact clampChar_single_tone hce

/-- The relocation pass preserves the single-tone invariant: the tone is
removed from the source letter, and is added to the target letter only
when that letter carries no tone of its own. -/
theorem move_single_tone {token : List Char} (htok : ∀ d ∈ token, single_tone_ok d)
    {x : Char} (hx : x ∈ move_tone_mark_within_token token) : single_tone_ok x := by
  have hTok : ∀ i, single_tone_ok (token.getD i ' ') := by
    intro i
    rcases getD_mem_or token i ' ' with h | h
    · exact htok _ h
    · rw [h]; decide
  unfold move_tone_mark_within_token at hx
  split at hx
  case h_2 => exact htok x hx
  case h_1 toneIdx heq =>
    split at hx
    case h_1 => exact htok x hx
    case h_2 expectedIdx hexp =>
      split at hx
      · exact htok x hx
      · simp only at hx
        rcases List.mem_flatten.mp hx with ⟨cell, hcell, hx2⟩
        rcases List.mem_or_eq_of_mem_set hcell with hcell | rfl
        · rcases List.mem_or_eq_of_mem_set hcell with hcell | rfl
          · rcases List.mem_map.mp hcell with ⟨d, hd, rfl⟩
            rcases List.mem_singleton.mp hx2 with rfl
            exact htok _ hd
          · -- the recomposed tone-stripped source letter
            refine nfcCompose_single_tone ?_ ?_ ?_ hx2
            · exact nfd_base_single_tone
            · intro m hm
              exact nfd_marks_single_tone (List.mem_of_mem_filter hm)
            · rw [List.countP_eq_zero.mpr]
              · omega
              · intro m hm
                have h2 := List.of_mem_filter hm
                simpa using h2
        · -- the recomposed tone-bearing target letter
          rcases hmE : ((nfd (token.getD toneIdx ' ')).drop 1).find?
              (fun m => decide (m ∈ COMBINING_TONE_MARKS)) with _ | tn
          · rw [hmE] at hx2
            simp only at hx2
            refine nfcCompose_single_tone ?_ ?_ ?_ hx2
            · exact nfd_base_single_tone
            · intro m hm
              exact nfd_marks_single_tone hm
            · exact hTok expectedIdx
          · rw [hmE] at hx2
            simp only at hx2
            by_cases hAny : ((nfd (token.getD expectedIdx ' ')).drop 1).any
                (fun m => decide (m ∈ COMBINING_TONE_MARKS))
            · rw [if_pos hAny] at hx2
              refine nfcCompose_single_tone ?_ ?_ ?_ hx2
              · exact nfd_base_single_tone
              · intro m hm
                exact nfd_marks_single_tone hm
              · exact hTok expectedIdx
            · rw [if_neg hAny] at hx2
              refine nfcCompose_single_tone ?_ ?_ ?_ hx2
              · exact nfd_base_single_tone
              · intro m hm
                rcases List.mem_append.mp hm with hm | hm
                · exact nfd_marks_single_tone hm
                · rcases List.mem_singleton.mp hm with rfl
                  exact nfd_marks_single_tone (List.mem_of_find?_eq_some hmE)
              · rw [List.countP_append]
                have h0 : ((nfd (token.getD expectedIdx ' ')).drop 1).countP
                    (fun m => decide (m ∈ COMBINING_TONE_MARKS)) = 0 := by
                  rw [List.countP_eq_zero]
                  intro m hm
                  intro hmd
                  apply hAny
                  rw [List.any_eq_true]
                  exact ⟨m, hm, hmd⟩
                rw [h0, List.countP_cons, List.countP_nil]
                have htn := List.find?_some hmE
                simp [htn]

/-- Per-entry check: the clamp pass is idempotent on every character of the
modelled repertoire. -/
theorem clampChar_idem_table :
    ∀ p ∈ nfdPairs, clamp_to_single_tone_per_letter (clampChar p.1) = clampChar p.1 := by
  decide

theorem clamp_cons (c : Char) (cs : List Char) :
    clamp_to_single_tone_per_letter (c :: cs) =
      clampChar c ++ clamp_to_single_tone_per_letter cs := by
  simp [clamp_to_single_tone_per_letter]

theorem clamp_append (s₁ s₂ : List Char) :
    clamp_to_single_tone_per_letter (s₁ ++ s₂) =
      clamp_to_single_tone_per_letter s₁ ++ clamp_to_single_tone_per_letter s₂ := by
  simp [clamp_to_single_tone_per_letter]

theorem clamp_clampChar (ch : Char) :
    clamp_to_single_tone_per_letter (clampChar ch) = clampChar ch := by
  cases ha : assoc nfdPairs ch with
  | none =>
    rw [clampChar_atomic ha, clamp_cons, clampChar_atomic ha]
    simp [clamp_to_single_tone_per_letter]
  | some l => exact clampChar_idem_table (ch, l) (assoc_mem ha)

theorem clamp_idem (t : List Char) :
    clamp_to_single_tone_per_letter (clamp_to_single_tone_per_letter t) =
      clamp_to_single_tone_per_letter t := by
  induction t with
  | nil => rfl
  | cons c cs ih => rw [clamp_cons, clamp_append, clamp_clampChar, ih]

/-- The clamp pass is modelled non-trivially: it rewrites the
diaeresis-bearing letters to their bare base (for the Cyrillic ӓ this
produces the homoglyph-map key а) and clamps the double-tone letter Ṍ to
Õ, which decomposes with two tone marks before the clamp. -/
theorem clamp_rewrites_examples :
    clampChar 'ä' = ['a'] ∧ clampChar 'ӓ' = ['а'] ∧ clampChar 'Ṍ' = ['Õ'] ∧
    ((nfd 'Ṍ').drop 1).countP (fun m => decide (m ∈ COMBINING_TONE_MARKS)) = 2 ∧
    fix_pipeline ("Ṍ".toList) = "Õ".toList := by decide

/-- C4 fails on the code in two independent ways: on "ồuyê" the relocation
pass of the second run undoes the first (the moved tone destroys the
literal "uyê" and the uy rule fires instead), and on "ӓ" the clamp pass
produces the Cyrillic homoglyph а, which only the second run's homoglyph
pass replaces by Latin a — even though the relocation pass is the identity
there. -/
theorem C4_counterexample :
    fix_pipeline (fix_pipeline ("ồuyê".toList)) ≠ fix_pipeline ("ồuyê".toList) ∧
    (fix_tone_placement_in_text (fix_prefix_passes ("ӓ".toList)) =
        fix_prefix_passes ("ӓ".toList) ∧
      fix_pipeline (fix_pipeline ("ӓ".toList)) ≠ fix_pipeline ("ӓ".toList)) := by
  decide

/-- C4 (amended): each rewriting pass of the Fixer is idempotent in
isolation (strip, homoglyph replacement, clamp), and the full pipeline is
idempotent exactly on those texts which its own output leaves fixed by the
homoglyph, clamp and relocation passes; stripping is always a no-op on
pipeline output, but the other three passes can each rewrite it, so
fix(fix(T)) = fix(T) fails in general. -/
theorem C4_pass_idempotence (t : List Char) :
    strip_invisible_characters (strip_invisible_characters t) =
      strip_invisible_characters t ∧
    replace_safe_homoglyphs (replace_safe_homoglyphs t) = replace_safe_homoglyphs t ∧
    clamp_to_single_tone_per_letter (clamp_to_single_tone_per_letter t) =
      clamp_to_single_tone_per_letter t ∧
    (replace_safe_homoglyphs (fix_pipeline t) = fix_pipeline t →
      clamp_to_single_tone_per_letter (fix_pipeline t) = fix_pipeline t →
      fix_tone_placement_in_text (fix_pipeline t) = fix_pipeline t →
      fix_pipeline (fix_pipeline t) = fix_pipeline t) := by
  refine ⟨strip_of_clean (fun c hc => strip_chars hc), replace_idem t, clamp_idem t,
    fun h1 h2 h3 => ?_⟩
  have hstrip : strip_invisible_characters (fix_pipeline t) = fix_pipeline t :=
    strip_of_clean (fun c hc => fix_tone_safe (fix_prefix_clean t) hc)
  show fix_tone_placement_in_text
      (clamp_to_single_tone_per_letter
        (replace_safe_homoglyphs (strip_invisible_characters (fix_pipeline t)))) =
    fix_pipeline t
  rw [hstrip, h1, h2]
  exact h3

theorem C4_witness :
    fix_pipeline (fix_pipeline ("ab".toList)) = fix_pipeline ("ab".toList) :=
  (C4_pass_idempotence ("ab".toList)).2.2.2 (by decide) (by decide) (by decide)

/-- C5: after the Fixer pipeline every character decomposes to a base plus
combining marks of which at most one is a Vietnamese tone mark.  The clamp
pass establishes the invariant letter-wise (Ṍ, whose decomposition carries
tilde and acute, is clamped to Õ), and the relocation pass preserves it:
the tone is added to the target letter only when that letter carries no
tone of its own. -/
theorem C5_single_tone_invariant (text : List Char) (c : Char)
    (h : c ∈ fix_pipeline text) :
    ((nfd c).drop 1).countP (fun m => decide (m ∈ COMBINING_TONE_MARKS)) ≤ 1 :=
  fix_tone_pres single_tone_ok (fun _ htok _ hx => move_single_tone htok hx)
    (fix_prefix_single_tone text) h

theorem C5_witness :
    'á' ∈ fix_pipeline ("á".toList) ∧
    ((nfd 'á').drop 1).countP (fun m => decide (m ∈ COMBINING_TONE_MARKS)) ≤ 1 :=
  ⟨by decide, C5_single_tone_invariant ("á".toList) 'á' (by decide)⟩

/-- C7 fails on the code in both rewriting passes after the homoglyph
replacement: the clamp pass maps ä to the bare a (a character neither in
the input "ä" nor the homoglyph image of any of its characters), and the
relocation pass on "oaì" recomposes a+grave into à, likewise new. -/
theorem C7_counterexample :
    ('à' ∈ fix_pipeline ("oaì".toList) ∧ 'à' ∉ "oaì".toList ∧
      (∀ d ∈ "oaì".toList, assoc HOMOGLYPH_SAFE_MAP d ≠ some 'à')) ∧
    ('a' ∈ fix_pipeline ("ä".toList) ∧ 'a' ∉ "ä".toList ∧
      (∀ d ∈ "ä".toList, assoc HOMOGLYPH_SAFE_MAP d ≠ some 'a')) := by decide

/-- C7 (amended): the strip/homoglyph/clamp prefix of the Fixer introduces
no character beyond those obtained from an input character by optionally
applying the homoglyph replacement and then clamping that single letter;
both the clamp recomposition and the tone-relocation pass can introduce
characters not present in the input (see the counterexample). -/
theorem C7_chars_from_input (t : List Char) (c : Char)
    (h : c ∈ fix_prefix_passes t) :
    ∃ d ∈ t, c ∈ clampChar ((assoc HOMOGLYPH_SAFE_MAP d).getD d) := by
  unfold fix_prefix_passes at h
  rcases mem_clamp.mp h with ⟨e, he, hce⟩
  unfold replace_safe_homoglyphs at he
  rcases List.mem_map.mp he with ⟨d, hd, rfl⟩
  exact ⟨d, strip_subset hd, hce⟩

theorem C7_witness :
    ∃ d ∈ "ba".toList, 'b' ∈ clampChar ((assoc HOMOGLYPH_SAFE_MAP d).getD d) :=
  C7_chars_from_input ("ba".toList) 'b' (by decide)

end VnValidator
